import Mathlib

/-!
# dice: eviction and query-watcher core

A shallow embedding of `core/eviction.go` and `core/query_watcher.go`.

* Machine integers are `Nat` / `Int` with explicit reduction modulo `2^w`.
* A `float64` is the rational it denotes; `float64Round` rounds a rational to
  the nearest `float64`, ties to even, so that a product is the `float64`
  product the code computes.
* `sync.Map` is an association list; the order of the list is the order in
  which `Range` yields the entries.  A list stands for a Go map when its keys
  are pairwise distinct (`SyncMap.WF`).
* A `*sync.Map` stored as a value of the outer map is embedded as the value
  itself: a mutation through the pointer is written back under the same key.
* Locks (`withLocks`) have no sequential effect and are transparent.
* The wall clock, `WildCardMatch`, `ExecuteQuery` and `syscall.Write` are
  inputs of the functions that consult them.
-/

namespace Dice

/-! ## Fixed-width arithmetic -/

/-- Subtraction on `uint32`: the result wraps modulo `2^32`. -/
def uint32Sub (a b : Nat) : Nat := (a % 2 ^ 32 + 2 ^ 32 - b % 2 ^ 32) % 2 ^ 32

/-- Addition on `uint32`: the result wraps modulo `2^32`. -/
def uint32Add (a b : Nat) : Nat := (a + b) % 2 ^ 32

/-- Reduction of an integer into the `int64` range (two's complement). -/
def wrapInt64 (z : Int) : Int := (z + 2 ^ 63) % 2 ^ 64 - 2 ^ 63

/-- Reduction of an integer into the `int16` range (two's complement). -/
def wrapInt16 (z : Int) : Int := (z + 2 ^ 15) % 2 ^ 16 - 2 ^ 15

/-! ## The approximated LRU clock (`eviction.go`, lines 39-49) -/

/-- `getCurrentClock`, the Unix time in seconds being the input:
`uint32(unix) & 0x00FFFFFF`. -/
def getCurrentClock (unixSeconds : Int) : Nat :=
  (unixSeconds % 2 ^ 32).toNat &&& 0x00FFFFFF

/-- `getIdleTime`, the value `c` returned by `getCurrentClock()` being the
first input. -/
def getIdleTime (c lastAccessedAt : Nat) : Nat :=
  if c ≥ lastAccessedAt then
    uint32Sub c lastAccessedAt
  else
    uint32Add (uint32Sub 0x00FFFFFF lastAccessedAt) c

/-! ## `sync.Map` -/

/-- A `sync.Map` with keys `K` and values `V`, in `Range` order. -/
abbrev SyncMap (K V : Type) := List (K × V)

namespace SyncMap

variable {K V : Type} [DecidableEq K]

/-- The keys of the map, in `Range` order. -/
def keys (m : SyncMap K V) : List K := m.map Prod.fst

/-- The list stands for a map: no key occurs twice. -/
def WF (m : SyncMap K V) : Prop := (keys m).Nodup

instance (m : SyncMap K V) : Decidable (WF m) := by
  unfold WF; infer_instance

/-- `Load` returns the value stored for a key, if any. -/
def Load : SyncMap K V → K → Option V
  | [], _ => none
  | (k, v) :: m, key => if k = key then some v else Load m key

/-- `Store` sets the value for a key. -/
def Store : SyncMap K V → K → V → SyncMap K V
  | [], key, value => [(key, value)]
  | (k, v) :: m, key, value =>
    if k = key then (k, value) :: m else (k, v) :: Store m key value

/-- `LoadOrStore` returns the existing value for the key if present;
otherwise it stores and returns the given value. -/
def LoadOrStore (m : SyncMap K V) (key : K) (value : V) : SyncMap K V × V :=
  match Load m key with
  | some actual => (m, actual)
  | none => (Store m key value, value)

/-- `Delete` deletes the value for a key. -/
def Delete : SyncMap K V → K → SyncMap K V
  | [], _ => []
  | (k, v) :: m, key => if k = key then Delete m key else (k, v) :: Delete m key

/-- `Range` calls `f` sequentially for each key and value present in the map,
threading the state `σ` that `f` mutates; if `f` returns `false`, `Range`
stops the iteration. -/
def Range {σ : Type} : SyncMap K V → (K → V → σ → σ × Bool) → σ → σ
  | [], _, s => s
  | (k, v) :: m, f, s =>
    match f k v s with
    | (s', true) => Range m f s'
    | (s', false) => s'

end SyncMap

/-! ## The subscription registry (`query_watcher.go`) -/

/-- Modelled from the spec: the external `DSQLQuery`, "comparable/hashable by
value", containing "at minimum a `KeyRegex` pattern"; `Body` stands for the
remaining fields. -/
structure DSQLQuery where
  KeyRegex : String
  Body : String
deriving DecidableEq, Repr

/-- `WatchEvent`. -/
structure WatchEvent where
  Key : String
  Operation : String
deriving DecidableEq, Repr

/-- `WatchSubscription`. -/
structure WatchSubscription where
  subscribe : Bool
  query : DSQLQuery
  clientFd : Int
deriving DecidableEq, Repr

/-- The client set of one query: a `sync.Map` from `clientFd` to `struct{}`. -/
abbrev Clients := SyncMap Int Unit

/-- `QueryWatcher.WatchList`: a `sync.Map` from query to `*sync.Map`. -/
abbrev WatchList := SyncMap DSQLQuery Clients

/-- `clientCount`: counts the clients by ranging over the set. -/
def clientCount (clients : Clients) : Nat :=
  SyncMap.Range clients (fun _ _ count => (count + 1, true)) 0

/-- `AddWatcher`. -/
def AddWatcher (w : WatchList) (query : DSQLQuery) (clientFd : Int) : WatchList :=
  let r := SyncMap.LoadOrStore w query []
  SyncMap.Store r.1 query (SyncMap.Store r.2 clientFd ())

/-- `RemoveWatcher`. -/
def RemoveWatcher (w : WatchList) (query : DSQLQuery) (clientFd : Int) : WatchList :=
  match SyncMap.Load w query with
  | some clients =>
    let clients' := SyncMap.Delete clients clientFd
    let w' := SyncMap.Store w query clients'
    if clientCount clients' = 0 then SyncMap.Delete w' query else w'
  | none => w

/-- The body of `listenForSubscriptions` for one received record. -/
def applySubscription (w : WatchList) (event : WatchSubscription) : WatchList :=
  if event.subscribe then
    AddWatcher w event.query event.clientFd
  else
    RemoveWatcher w event.query event.clientFd

/-- The registry after a sequence of calls, starting from `NewQueryWatcher`
(the empty `WatchList`). -/
def runSubscriptions (events : List WatchSubscription) : WatchList :=
  events.foldl applySubscription []

/-- The client handles subscribed to a query (none when it is not registered). -/
def clientsOf (w : WatchList) (query : DSQLQuery) : List Int :=
  match SyncMap.Load w query with
  | some clients => SyncMap.keys clients
  | none => []

/-- The lists stand for Go maps: no query occurs twice in the `WatchList` and
no client handle occurs twice in a client set. -/
def RegistryWF (w : WatchList) : Prop :=
  SyncMap.WF w ∧ ∀ e ∈ w, SyncMap.WF e.2

/-! ## The store and the eviction strategies (`eviction.go`) -/

/-- Modelled from the spec: the external `Obj`, "value + `LastAccessedAt`, a
24-bit wrapping clock tick" (the field is a `uint32`). -/
structure Obj where
  Value : String
  LastAccessedAt : Nat
deriving DecidableEq, Repr

/-- Modelled from the spec: the external `Store`, a "shared mapping from key to
object" that "exposes locking scopes, iteration, point lookup, and
pointer-based deletion".  The field `store` lists the entries in the order in
which `store.store.All` yields them. -/
structure Store where
  store : List (String × Obj)
deriving DecidableEq, Repr

namespace Store

/-- The list stands for a map: no key occurs twice. -/
def WF (store : Store) : Prop := SyncMap.WF store.store

instance (store : Store) : Decidable (WF store) := by
  unfold WF; infer_instance

/-- Modelled from the spec: `store.store.Get`, the collaborator
`get(key) → (object, found)`. -/
def Get (store : Store) (k : String) : Option Obj := SyncMap.Load store.store k

/-- Modelled from the spec: `store.delByPtr`, the collaborator
`deleteByPointer(key)`; it removes the key from the store. -/
def delByPtr (store : Store) (k : String) : Store := ⟨SyncMap.Delete store.store k⟩

/-- Modelled from the spec: `store.DelByPtr`, `deleteByPointer(key)` taking the
store's own lock. -/
def DelByPtr (store : Store) (k : String) : Store := delByPtr store k

/-- Modelled from the spec: `store.store.All`, the collaborator
`iterate(visitor) → bool-continue`: the visitor is called on the entries in
iteration order, threading the state `σ` it mutates, until it returns `false`. -/
def All {σ : Type} (store : Store) (f : String → Obj → σ → σ × Bool) (s : σ) : σ :=
  SyncMap.Range store.store f s

end Store

/-! ## `float64` arithmetic -/

/-- Rounding of a rational to the nearest integer, ties to the even one. -/
def roundTiesEven (x : ℚ) : Int :=
  if x - ⌊x⌋ < 1 / 2 then ⌊x⌋
  else if 1 / 2 < x - ⌊x⌋ then ⌊x⌋ + 1
  else if ⌊x⌋ % 2 = 0 then ⌊x⌋ else ⌊x⌋ + 1

/-- The exponent of the unit in the last place of the `float64` values around
`x`: 52 below the binade of `x`, and `-1074` in the subnormal range. -/
def float64Ulp (x : ℚ) : Int := max (Int.log 2 |x|) (-1022) - 52

/-- Rounding of a rational to `float64` (IEEE 754 binary64, round to nearest,
ties to even), the result being given as a rational.  Overflow to an infinity
(a magnitude of `2^1024` or more) is not represented: the rounded value is kept. -/
def float64Round (x : ℚ) : ℚ :=
  (roundTiesEven (x / 2 ^ float64Ulp x) : ℚ) * 2 ^ float64Ulp x

/-- The rational is the value of a finite `float64`. -/
def IsFloat64 (x : ℚ) : Prop := float64Round x = x

/-- Modelled from the spec: the configuration inputs "eviction strategy name",
"eviction ratio" and "key-count limit" of package `config`.  `EvictionRatio`
is the rational value of the `float64`. -/
structure Config where
  EvictionStrategy : String
  EvictionRatio : ℚ
  KeysLimit : Int

/-- Configurations of the spec: "eviction ratio (fraction in (0,1]), key-count
limit (positive integer)", the limit being a Go `int`. -/
def Config.WF (cfg : Config) : Prop :=
  0 < cfg.EvictionRatio ∧ cfg.EvictionRatio ≤ 1 ∧ 0 < cfg.KeysLimit ∧ cfg.KeysLimit < 2 ^ 63

/-- The product `config.EvictionRatio * float64(config.KeysLimit)`, computed in
`float64`: the limit is rounded to `float64`, and so is the product. -/
def Config.target (cfg : Config) : ℚ :=
  float64Round (cfg.EvictionRatio * float64Round (cfg.KeysLimit : ℚ))

/-- Conversion of a floating-point value to an integer: the fraction is
discarded (truncation towards zero). -/
def truncate (x : ℚ) : Int := if 0 ≤ x then ⌊x⌋ else ⌈x⌉

/-- `evictFirst`. -/
def evictFirst (store : Store) : Store :=
  store.All (fun k _ st => (Store.delByPtr st k, false)) store

/-- `evictAllkeysRandom`; the state of the iteration is the store and the
`int64` counter `evictCount`. -/
def evictAllkeysRandom (cfg : Config) (store : Store) : Store :=
  let evictCount : Int := wrapInt64 (truncate cfg.target)
  (store.All (fun k _ (st : Store × Int) =>
      let store' := Store.delByPtr st.1 k
      let evictCount' := wrapInt64 (st.2 - 1)
      ((store', evictCount'), decide (evictCount' > 0)))
    (store, evictCount)).1

/-- Modelled from the spec: an `EvictionPool` entry, "`(key: string, idleTime:
uint32)`". -/
structure PoolItem where
  keyPtr : String
  idleTime : Nat
deriving DecidableEq, Repr

/-- Modelled from the spec: the `EvictionPool` behind the global `ePool`; `pool`
is "ordered by idle time descending (most idle first)". -/
structure EvictionPool where
  pool : List PoolItem
deriving DecidableEq, Repr

/-- Modelled from the spec: the "fixed sample capacity (matching the per-cycle
sample size)" of the pool. -/
def poolCapacity : Nat := 5

/-- Modelled from the spec: insertion "keeping it ordered by derived idle time
descending"; the new item goes before the first strictly less idle one. -/
def insertByIdle (item : PoolItem) : List PoolItem → List PoolItem
  | [] => [item]
  | head :: rest =>
    if head.idleTime < item.idleTime then item :: head :: rest
    else head :: insertByIdle item rest

namespace EvictionPool

/-- Modelled from the spec: `Push(key, lastAccessedAt)`: "insert into the pool
keeping it ordered by derived idle time descending (computed at push time via
4.2)"; "entries are never duplicated for the same key" and "the pool holds at
most a fixed sample capacity".  The clock read by `getIdleTime` is the input
`clock`. -/
def Push (ePool : EvictionPool) (clock : Nat) (key : String) (lastAccessedAt : Nat) :
    EvictionPool :=
  if ePool.pool.any (fun item => decide (item.keyPtr = key)) then ePool
  else ⟨(insertByIdle ⟨key, getIdleTime clock lastAccessedAt⟩ ePool.pool).take poolCapacity⟩

/-- Modelled from the spec: `Pop()`: "remove and return the head (most idle)
entry, or a sentinel indicating emptiness". -/
def Pop (ePool : EvictionPool) : Option PoolItem × EvictionPool :=
  match ePool.pool with
  | [] => (none, ePool)
  | item :: rest => (some item, ⟨rest⟩)

end EvictionPool

/-- `populateEvictionPool`; the state of the iteration is the global `ePool` and
the counter `sampleSize`. -/
def populateEvictionPool (clock : Nat) (store : Store) (ePool : EvictionPool) :
    EvictionPool :=
  (store.All (fun k _ (st : EvictionPool × Int) =>
      match store.Get k with
      | some v =>
        let ePool' := st.1.Push clock k v.LastAccessedAt
        let sampleSize' := st.2 - 1
        ((ePool', sampleSize'), decide (sampleSize' > 0))
      | none => (st, decide (st.2 > 0)))
    (ePool, 5)).1

/-- The `for` loop of `evictAllkeysLRU`, by the number of iterations the
condition `i < int(evictCount)` still allows. -/
def evictLRULoop : Nat → Store → EvictionPool → Store × EvictionPool
  | 0, store, ePool => (store, ePool)
  | remaining + 1, store, ePool =>
    if ePool.pool.length > 0 then
      match ePool.Pop with
      | (none, ePool') => (store, ePool')
      | (some item, ePool') => evictLRULoop remaining (store.DelByPtr item.keyPtr) ePool'
    else (store, ePool)

/-- `evictAllkeysLRU`, on the store and the global `ePool`; `evictCount` is an
`int16`. -/
def evictAllkeysLRU (cfg : Config) (clock : Nat) (store : Store) (ePool : EvictionPool) :
    Store × EvictionPool :=
  let ePool' := populateEvictionPool clock store ePool
  let evictCount : Int := wrapInt16 (truncate cfg.target)
  evictLRULoop evictCount.toNat store ePool'

/-- `Store.evict`: the `switch` on `config.EvictionStrategy`, on the store and
the global `ePool`. -/
def Store.evict (cfg : Config) (clock : Nat) (store : Store) (ePool : EvictionPool) :
    Store × EvictionPool :=
  match cfg.EvictionStrategy with
  | "simple-first" => (evictFirst store, ePool)
  | "allkeys-random" => (evictAllkeysRandom cfg store, ePool)
  | "allkeys-lru" => evictAllkeysLRU cfg clock store ePool
  | _ => (store, ePool)

/-! ## The dispatch step (`watchKeys`, lines 83-107) -/

/-- The collaborators consulted by one dispatch step, as inputs: `WildCardMatch`
on a pattern and a key, `ExecuteQuery` on a query (against the store of shard
0), and `Write query clientFd queryResult`, which tells whether
`syscall.Write(clientFd, Encode(CreatePushResponse(&query, &queryResult)))`
returned no error. -/
structure Oracles (R : Type) where
  WildCardMatch : String → String → Bool
  ExecuteQuery : DSQLQuery → Except String R
  Write : DSQLQuery → Int → R → Bool

/-- The state of one dispatch step: the registry and the writes attempted so
far, as pairs of query and client handle, in order. -/
structure DispatchState where
  WatchList : WatchList
  writes : List (DSQLQuery × Int)
deriving DecidableEq, Repr

/-- The body of `clients.Range` (lines 97-104) for one client. -/
def notifyClient {R : Type} (o : Oracles R) (query : DSQLQuery) (queryResult : R)
    (clientFd : Int) (st : DispatchState) : DispatchState :=
  let st' : DispatchState := ⟨st.WatchList, st.writes ++ [(query, clientFd)]⟩
  if o.Write query clientFd queryResult then st'
  else ⟨RemoveWatcher st'.WatchList query clientFd, st'.writes⟩

/-- The body of `w.WatchList.Range` (lines 84-107) for one entry. -/
def visitQuery {R : Type} (o : Oracles R) (event : WatchEvent) (query : DSQLQuery)
    (clients : Clients) (st : DispatchState) : DispatchState × Bool :=
  if o.WildCardMatch query.KeyRegex event.Key then
    match o.ExecuteQuery query with
    | .error _ => (st, true)
    | .ok queryResult =>
      (SyncMap.Range clients
        (fun clientFd _ st' => (notifyClient o query queryResult clientFd st', true)) st, true)
  else (st, true)

/-- The body of `watchKeys` for one `WatchEvent` received on `WatchChan`. -/
def watchKeysEvent {R : Type} (o : Oracles R) (w : WatchList) (event : WatchEvent) :
    DispatchState :=
  SyncMap.Range w (visitQuery o event) ⟨w, []⟩

/-! ## Auxiliary definitions -/

/-- Registry invariant: the lists stand for Go maps and no query is mapped to
an empty client set. -/
def RegistryInv (w : WatchList) : Prop :=
  RegistryWF w ∧ ∀ e ∈ w, e.2 ≠ []

/-- The registry `w` extended with the client set `clients` for a query that `w`
does not register; an empty client set leaves no entry. -/
def withEntry (w : WatchList) (query : DSQLQuery) (clients : Clients) : WatchList :=
  if clients = [] then w else w ++ [(query, clients)]

/-- The visitor of `evictAllkeysRandom`. -/
def randomVisitor (k : String) (_obj : Obj) (st : Store × Int) : (Store × Int) × Bool :=
  ((Store.delByPtr st.1 k, wrapInt64 (st.2 - 1)), decide (wrapInt64 (st.2 - 1) > 0))

/-- The entry of a query is not an empty client set: the query is not
registered, or it has a client. -/
def NoEmptyEntry (w : WatchList) (query : DSQLQuery) : Prop :=
  SyncMap.Load w query = none ∨ clientsOf w query ≠ []

/-- The dispatch step writes on behalf of the query: its `KeyRegex` matches the
key of the event and its execution returns no error. -/
def delivers {R : Type} (o : Oracles R) (event : WatchEvent) (query : DSQLQuery) : Bool :=
  o.WildCardMatch query.KeyRegex event.Key &&
    (match o.ExecuteQuery query with
      | .ok _ => true
      | .error _ => false)

/-- The number of writes to a client attempted on behalf of a query. -/
def attempts (st : DispatchState) (query : DSQLQuery) (clientFd : Int) : Nat :=
  st.writes.countP (fun a => decide (a.1 = query ∧ a.2 = clientFd))

/-- The state after the visit of one entry of the `WatchList`. -/
def visit {R : Type} (o : Oracles R) (event : WatchEvent) (st : DispatchState)
    (e : DSQLQuery × Clients) : DispatchState :=
  (visitQuery o event e.1 e.2 st).1

/-- The state after the writes to the clients of one query. -/
def notifyAll {R : Type} (o : Oracles R) (query : DSQLQuery) (queryResult : R)
    (clients : Clients) (st : DispatchState) : DispatchState :=
  clients.foldl (fun st' e => notifyClient o query queryResult e.1 st') st

/-- The visitor of `populateEvictionPool`, recording each call of `ePool.Push`
as a pair of key and `lastAccessedAt`. -/
def populateVisitorLog (clock : Nat) (store : Store) (k : String) (_obj : Obj)
    (st : (EvictionPool × Int) × List (String × Nat)) :
    ((EvictionPool × Int) × List (String × Nat)) × Bool :=
  match store.Get k with
  | some v =>
    let ePool' := st.1.1.Push clock k v.LastAccessedAt
    let sampleSize' := st.1.2 - 1
    (((ePool', sampleSize'), st.2 ++ [(k, v.LastAccessedAt)]), decide (sampleSize' > 0))
  | none => (st, decide (st.1.2 > 0))

/-- `populateEvictionPool` together with the record of the calls of
`ePool.Push`, in order. -/
def populateEvictionPoolLog (clock : Nat) (store : Store) (ePool : EvictionPool) :
    EvictionPool × List (String × Nat) :=
  let r := store.All (populateVisitorLog clock store) ((ePool, 5), [])
  (r.1.1, r.2)

/-- The `for` loop of `evictAllkeysLRU` together with the record of the keys
passed to `store.DelByPtr`, one per iteration that pops, in order. -/
def evictLRULoopLog : Nat → Store → EvictionPool → List String →
    (Store × EvictionPool) × List String
  | 0, store, ePool, log => ((store, ePool), log)
  | remaining + 1, store, ePool, log =>
    if ePool.pool.length > 0 then
      match ePool.Pop with
      | (none, ePool') => ((store, ePool'), log)
      | (some item, ePool') =>
        evictLRULoopLog remaining (store.DelByPtr item.keyPtr) ePool' (log ++ [item.keyPtr])
    else ((store, ePool), log)

/-- `evictAllkeysLRU` together with the record of the keys passed to
`store.DelByPtr`. -/
def evictAllkeysLRULog (cfg : Config) (clock : Nat) (store : Store) (ePool : EvictionPool) :
    (Store × EvictionPool) × List String :=
  let ePool' := populateEvictionPool clock store ePool
  let evictCount : Int := wrapInt16 (truncate cfg.target)
  evictLRULoopLog evictCount.toNat store ePool' []

/-- The visitor of `populateEvictionPool`. -/
def populateVisitor (clock : Nat) (store : Store) (k : String) (_obj : Obj)
    (st : EvictionPool × Int) : (EvictionPool × Int) × Bool :=
  match store.Get k with
  | some v =>
    let ePool' := st.1.Push clock k v.LastAccessedAt
    let sampleSize' := st.2 - 1
    ((ePool', sampleSize'), decide (sampleSize' > 0))
  | none => (st, decide (st.2 > 0))

/-! ## Lemmas on `sync.Map` -/

namespace SyncMap

variable {K V : Type} [DecidableEq K]

theorem Load_eq_none_iff (m : SyncMap K V) (key : K) :
    Load m key = none ↔ key ∉ keys m := by
  induction m with
  | nil => simp [Load, keys]
  | cons e m ih =>
    obtain ⟨k, v⟩ := e
    by_cases h : k = key
    · simp [Load, keys, h]
    · have h' : ¬ key = k := fun hk => h hk.symm
      simpa [Load, keys, h, h'] using ih

theorem Load_isSome_iff (m : SyncMap K V) (key : K) :
    (Load m key).isSome ↔ key ∈ keys m := by
  rw [← not_iff_not, ← Load_eq_none_iff]
  cases Load m key <;> simp

theorem Load_mem {m : SyncMap K V} {key : K} {v : V} (h : Load m key = some v) :
    (key, v) ∈ m := by
  induction m with
  | nil => simp [Load] at h
  | cons e m ih =>
    obtain ⟨k, w⟩ := e
    by_cases hk : k = key
    · simp [Load, hk] at h
      simp [hk, h]
    · simp [Load, hk] at h
      exact List.mem_cons_of_mem _ (ih h)

theorem Load_of_mem {m : SyncMap K V} {key : K} {v : V} (hwf : WF m)
    (h : (key, v) ∈ m) : Load m key = some v := by
  induction m with
  | nil => simp at h
  | cons e m ih =>
    obtain ⟨k, w⟩ := e
    simp only [WF, keys, List.map_cons, List.nodup_cons] at hwf
    rcases List.mem_cons.mp h with h | h
    · cases h
      simp [Load]
    · have hne : k ≠ key := by
        intro hk
        apply hwf.1
        rw [hk]
        exact List.mem_map_of_mem Prod.fst h
      simp only [Load, hne, if_false]
      exact ih hwf.2 h

theorem Load_Store_self (m : SyncMap K V) (key : K) (value : V) :
    Load (Store m key value) key = some value := by
  induction m with
  | nil => simp [Store, Load]
  | cons e m ih =>
    obtain ⟨k, v⟩ := e
    by_cases h : k = key
    · simp [Store, Load, h]
    · simp [Store, Load, h, ih]

theorem Load_Store_other (m : SyncMap K V) {key key' : K} (value : V)
    (hne : key ≠ key') : Load (Store m key value) key' = Load m key' := by
  induction m with
  | nil => simp [Store, Load, hne]
  | cons e m ih =>
    obtain ⟨k, v⟩ := e
    by_cases h : k = key
    · subst h
      simp [Store, Load, hne]
    · by_cases h' : k = key'
      · subst h'
        simp [Store, Load, h]
      · simp [Store, Load, h, h', ih]

theorem Store_of_Load {m : SyncMap K V} {key : K} {value : V}
    (h : Load m key = some value) : Store m key value = m := by
  induction m with
  | nil => simp [Load] at h
  | cons e m ih =>
    obtain ⟨k, v⟩ := e
    by_cases hk : k = key
    · simp [Load, hk] at h
      simp [Store, hk, h]
    · simp [Load, hk] at h
      simp [Store, hk, ih h]

theorem Store_Store (m : SyncMap K V) (key : K) (v₁ v₂ : V) :
    Store (Store m key v₁) key v₂ = Store m key v₂ := by
  induction m with
  | nil => simp [Store]
  | cons e m ih =>
    obtain ⟨k, v⟩ := e
    by_cases hk : k = key
    · simp [Store, hk]
    · simp [Store, hk, ih]

theorem Store_of_none {m : SyncMap K V} {key : K} (value : V)
    (h : Load m key = none) : Store m key value = m ++ [(key, value)] := by
  induction m with
  | nil => simp [Store]
  | cons e m ih =>
    obtain ⟨k, v⟩ := e
    by_cases hk : k = key
    · simp [Load, hk] at h
    · simp [Load, hk] at h
      simp [Store, hk, ih h]

theorem Store_append_last (m : SyncMap K V) {key : K} (v₁ v₂ : V)
    (h : Load m key = none) :
    Store (m ++ [(key, v₁)]) key v₂ = m ++ [(key, v₂)] := by
  induction m with
  | nil => simp [Store]
  | cons e m ih =>
    obtain ⟨k, v⟩ := e
    by_cases hk : k = key
    · simp [Load, hk] at h
    · simp [Load, hk] at h
      simp [Store, hk, ih h]

theorem Load_append_last (m : SyncMap K V) {key : K} (value : V)
    (h : Load m key = none) : Load (m ++ [(key, value)]) key = some value := by
  rw [← Store_of_none value h]
  exact Load_Store_self m key value

theorem Delete_of_none {m : SyncMap K V} {key : K} (h : Load m key = none) :
    Delete m key = m := by
  induction m with
  | nil => simp [Delete]
  | cons e m ih =>
    obtain ⟨k, v⟩ := e
    by_cases hk : k = key
    · simp [Load, hk] at h
    · simp [Load, hk] at h
      simp [Delete, hk, ih h]

theorem Delete_append_last (m : SyncMap K V) {key : K} (value : V)
    (h : Load m key = none) : Delete (m ++ [(key, value)]) key = m := by
  induction m with
  | nil => simp [Delete]
  | cons e m ih =>
    obtain ⟨k, v⟩ := e
    by_cases hk : k = key
    · simp [Load, hk] at h
    · simp [Load, hk] at h
      simp [Delete, hk, ih h]

theorem Delete_sublist (m : SyncMap K V) (key : K) : List.Sublist (Delete m key) m := by
  induction m with
  | nil => simp [Delete]
  | cons e m ih =>
    obtain ⟨k, v⟩ := e
    by_cases hk : k = key
    · simp only [Delete, hk, if_true]
      exact List.Sublist.cons _ (hk ▸ ih)
    · simp only [Delete, hk, if_false]
      exact List.Sublist.cons₂ _ ih

theorem mem_Delete_iff {m : SyncMap K V} {key : K} {e : K × V} :
    e ∈ Delete m key ↔ e ∈ m ∧ e.1 ≠ key := by
  induction m with
  | nil => simp [Delete]
  | cons a m ih =>
    obtain ⟨k, v⟩ := a
    by_cases hk : k = key
    · subst hk
      simp only [Delete, if_true, ih, List.mem_cons]
      constructor
      · rintro ⟨h1, h2⟩
        exact ⟨Or.inr h1, h2⟩
      · rintro ⟨h1 | h1, h2⟩
        · exact absurd (by rw [h1]) h2
        · exact ⟨h1, h2⟩
    · simp only [Delete, hk, if_false, List.mem_cons, ih]
      constructor
      · rintro (h1 | ⟨h1, h2⟩)
        · exact ⟨Or.inl h1, by rw [h1]; exact hk⟩
        · exact ⟨Or.inr h1, h2⟩
      · rintro ⟨h1 | h1, h2⟩
        · exact Or.inl h1
        · exact Or.inr ⟨h1, h2⟩

theorem mem_keys_Delete {m : SyncMap K V} {key k : K} :
    k ∈ keys (Delete m key) ↔ k ∈ keys m ∧ k ≠ key := by
  simp only [keys, List.mem_map, mem_Delete_iff]
  constructor
  · rintro ⟨e, ⟨h1, h2⟩, rfl⟩
    exact ⟨⟨e, h1, rfl⟩, h2⟩
  · rintro ⟨⟨e, h1, rfl⟩, h2⟩
    exact ⟨e, ⟨h1, h2⟩, rfl⟩

theorem Load_Delete_self (m : SyncMap K V) (key : K) :
    Load (Delete m key) key = none := by
  rw [Load_eq_none_iff, mem_keys_Delete]
  exact fun h => h.2 rfl

theorem Load_Delete_other (m : SyncMap K V) {key key' : K} (hne : key ≠ key') :
    Load (Delete m key) key' = Load m key' := by
  induction m with
  | nil => simp [Delete, Load]
  | cons e m ih =>
    obtain ⟨k, v⟩ := e
    by_cases hk : k = key
    · subst hk
      simp [Delete, Load, hne, ih]
    · by_cases hk' : k = key'
      · subst hk'
        simp [Delete, Load, hk]
      · simp [Delete, Load, hk, hk', ih]

theorem keys_Store (m : SyncMap K V) (key : K) (value : V) :
    keys (Store m key value) = if key ∈ keys m then keys m else keys m ++ [key] := by
  induction m with
  | nil => simp [Store, keys]
  | cons e m ih =>
    obtain ⟨k, v⟩ := e
    simp only [keys] at ih
    by_cases hk : k = key
    · simp [Store, keys, hk]
    · have hk' : ¬ key = k := fun h => hk h.symm
      by_cases hm : key ∈ List.map Prod.fst m
      · simp [Store, keys, hk, hk', ih, hm]
      · simp [Store, keys, hk, hk', ih, hm]

theorem WF_Store {m : SyncMap K V} (h : WF m) (key : K) (value : V) :
    WF (Store m key value) := by
  unfold WF at *
  rw [keys_Store]
  split
  · exact h
  · rename_i hm
    rw [List.nodup_append]
    refine ⟨h, List.nodup_singleton _, ?_⟩
    intro a ha hb
    simp at hb
    exact hm (hb ▸ ha)

theorem WF_Delete {m : SyncMap K V} (h : WF m) (key : K) : WF (Delete m key) := by
  unfold WF keys at *
  exact List.Nodup.sublist ((Delete_sublist m key).map Prod.fst) h

theorem mem_Store {m : SyncMap K V} {key : K} {value : V} {e : K × V}
    (h : e ∈ Store m key value) : e ∈ m ∨ e = (key, value) := by
  induction m with
  | nil => simpa [Store] using h
  | cons a m ih =>
    obtain ⟨k, v⟩ := a
    by_cases hk : k = key
    · simp only [Store, hk, if_true, List.mem_cons] at h
      rcases h with h | h
      · right; exact h
      · left; exact List.mem_cons_of_mem _ h
    · simp only [Store, hk, if_false, List.mem_cons] at h
      rcases h with h | h
      · left; rw [h]; exact List.mem_cons_self _ _
      · rcases ih h with h | h
        · left; exact List.mem_cons_of_mem _ h
        · right; exact h

omit [DecidableEq K] in
theorem Range_continue {σ : Type} (m : SyncMap K V) (g : K → V → σ → σ) (s : σ) :
    Range m (fun k v s => (g k v s, true)) s = m.foldl (fun s e => g e.1 e.2 s) s := by
  induction m generalizing s with
  | nil => rfl
  | cons e m ih =>
    obtain ⟨k, v⟩ := e
    simp [Range, ih]

end SyncMap

theorem clientCount_eq_length (clients : Clients) : clientCount clients = clients.length := by
  unfold clientCount
  rw [SyncMap.Range_continue clients (fun _ _ count => count + 1) 0]
  have : ∀ (l : Clients) (n : Nat),
      List.foldl (fun s (_ : Int × Unit) => s + 1) n l = n + l.length := by
    intro l
    induction l with
    | nil => simp
    | cons a l ih => intro n; simp [ih]; omega
  simpa using this clients 0

theorem clientCount_eq_zero_iff (clients : Clients) :
    clientCount clients = 0 ↔ clients = [] := by
  rw [clientCount_eq_length]
  exact List.length_eq_zero

/-! ## Lemmas on the registry -/

theorem AddWatcher_eq (w : WatchList) (query : DSQLQuery) (clientFd : Int) :
    AddWatcher w query clientFd =
      SyncMap.Store w query (SyncMap.Store ((SyncMap.Load w query).getD []) clientFd ()) := by
  unfold AddWatcher SyncMap.LoadOrStore
  cases h : SyncMap.Load w query with
  | none => simp [SyncMap.Store_Store]
  | some clients => simp

theorem Clients_Store_ne_nil (clients : Clients) (clientFd : Int) :
    SyncMap.Store clients clientFd () ≠ [] := by
  intro h
  have := SyncMap.Load_Store_self clients clientFd ()
  rw [h] at this
  simp [SyncMap.Load] at this

theorem RegistryWF_Load {w : WatchList} (hw : RegistryWF w) (query : DSQLQuery) :
    SyncMap.WF ((SyncMap.Load w query).getD []) := by
  cases h : SyncMap.Load w query with
  | none => simp [SyncMap.WF, SyncMap.keys]
  | some clients => exact hw.2 _ (SyncMap.Load_mem h)

theorem RegistryWF_AddWatcher {w : WatchList} (hw : RegistryWF w)
    (query : DSQLQuery) (clientFd : Int) : RegistryWF (AddWatcher w query clientFd) := by
  rw [AddWatcher_eq]
  refine ⟨SyncMap.WF_Store hw.1 _ _, ?_⟩
  intro e he
  rcases SyncMap.mem_Store he with he | he
  · exact hw.2 e he
  · rw [he]
    exact SyncMap.WF_Store (RegistryWF_Load hw query) _ _

theorem RegistryInv_AddWatcher {w : WatchList} (hw : RegistryInv w)
    (query : DSQLQuery) (clientFd : Int) : RegistryInv (AddWatcher w query clientFd) := by
  refine ⟨RegistryWF_AddWatcher hw.1 query clientFd, ?_⟩
  rw [AddWatcher_eq]
  intro e he
  rcases SyncMap.mem_Store he with he | he
  · exact hw.2 e he
  · rw [he]
    exact Clients_Store_ne_nil _ _

theorem RemoveWatcher_of_none {w : WatchList} {query : DSQLQuery} (clientFd : Int)
    (h : SyncMap.Load w query = none) : RemoveWatcher w query clientFd = w := by
  simp [RemoveWatcher, h]

theorem RemoveWatcher_of_some {w : WatchList} {query : DSQLQuery} {clients : Clients}
    (clientFd : Int) (h : SyncMap.Load w query = some clients) :
    RemoveWatcher w query clientFd =
      if SyncMap.Delete clients clientFd = [] then
        SyncMap.Delete (SyncMap.Store w query (SyncMap.Delete clients clientFd)) query
      else SyncMap.Store w query (SyncMap.Delete clients clientFd) := by
  simp [RemoveWatcher, h, clientCount_eq_zero_iff]

theorem RegistryWF_RemoveWatcher {w : WatchList} (hw : RegistryWF w)
    (query : DSQLQuery) (clientFd : Int) : RegistryWF (RemoveWatcher w query clientFd) := by
  cases h : SyncMap.Load w query with
  | none => rw [RemoveWatcher_of_none clientFd h]; exact hw
  | some clients =>
    rw [RemoveWatcher_of_some clientFd h]
    have hst : RegistryWF (SyncMap.Store w query (SyncMap.Delete clients clientFd)) := by
      refine ⟨SyncMap.WF_Store hw.1 _ _, ?_⟩
      intro e he
      rcases SyncMap.mem_Store he with he | he
      · exact hw.2 e he
      · rw [he]
        exact SyncMap.WF_Delete (hw.2 _ (SyncMap.Load_mem h)) _
    split
    · refine ⟨SyncMap.WF_Delete hst.1 _, ?_⟩
      intro e he
      exact hst.2 e (SyncMap.mem_Delete_iff.mp he).1
    · exact hst

theorem RegistryInv_RemoveWatcher {w : WatchList} (hw : RegistryInv w)
    (query : DSQLQuery) (clientFd : Int) : RegistryInv (RemoveWatcher w query clientFd) := by
  refine ⟨RegistryWF_RemoveWatcher hw.1 query clientFd, ?_⟩
  cases h : SyncMap.Load w query with
  | none => rw [RemoveWatcher_of_none clientFd h]; exact hw.2
  | some clients =>
    rw [RemoveWatcher_of_some clientFd h]
    split
    · intro e he
      have he' := SyncMap.mem_Delete_iff.mp he
      rcases SyncMap.mem_Store he'.1 with h1 | h1
      · exact hw.2 e h1
      · exact absurd (by rw [h1]) he'.2
    · rename_i hne
      intro e he
      rcases SyncMap.mem_Store he with h1 | h1
      · exact hw.2 e h1
      · rw [h1]; exact hne

theorem RegistryInv_runSubscriptions (events : List WatchSubscription) :
    RegistryInv (runSubscriptions events) := by
  unfold runSubscriptions
  have key : ∀ (w : WatchList), RegistryInv w →
      RegistryInv (events.foldl applySubscription w) := by
    induction events with
    | nil => intro w hw; exact hw
    | cons ev evs ih =>
      intro w hw
      simp only [List.foldl_cons]
      apply ih
      unfold applySubscription
      split
      · exact RegistryInv_AddWatcher hw _ _
      · exact RegistryInv_RemoveWatcher hw _ _
  apply key
  exact ⟨⟨List.nodup_nil, by simp⟩, by simp⟩

theorem RegistryInv_registered_iff {w : WatchList} (hw : RegistryInv w) (query : DSQLQuery) :
    query ∈ SyncMap.keys w ↔ clientsOf w query ≠ [] := by
  rw [← SyncMap.Load_isSome_iff]
  unfold clientsOf
  cases h : SyncMap.Load w query with
  | none => simp
  | some clients =>
    have := hw.2 _ (SyncMap.Load_mem h)
    simpa [SyncMap.keys] using this

theorem RemoveWatcher_absent {w : WatchList} (hw : RegistryInv w) (query : DSQLQuery)
    (clientFd : Int)
    (h : SyncMap.Load w query = none ∨ clientFd ∉ clientsOf w query) :
    RemoveWatcher w query clientFd = w := by
  cases hl : SyncMap.Load w query with
  | none => exact RemoveWatcher_of_none clientFd hl
  | some clients =>
    have hc : clientFd ∉ SyncMap.keys clients := by
      rcases h with h | h
      · rw [hl] at h; cases h
      · simpa [clientsOf, hl] using h
    have hd : SyncMap.Delete clients clientFd = clients :=
      SyncMap.Delete_of_none ((SyncMap.Load_eq_none_iff _ _).mpr hc)
    rw [RemoveWatcher_of_some clientFd hl, hd, if_neg (hw.2 _ (SyncMap.Load_mem hl))]
    exact SyncMap.Store_of_Load hl

theorem RemoveWatcher_result_absent (w : WatchList) (query : DSQLQuery) (clientFd : Int) :
    SyncMap.Load (RemoveWatcher w query clientFd) query = none ∨
      clientFd ∉ clientsOf (RemoveWatcher w query clientFd) query := by
  cases hl : SyncMap.Load w query with
  | none => left; rw [RemoveWatcher_of_none clientFd hl]; exact hl
  | some clients =>
    rw [RemoveWatcher_of_some clientFd hl]
    split
    · left; exact SyncMap.Load_Delete_self _ _
    · right
      simp only [clientsOf, SyncMap.Load_Store_self, SyncMap.mem_keys_Delete]
      exact fun h => h.2 rfl

theorem Load_withEntry {w : WatchList} {query : DSQLQuery}
    (h : SyncMap.Load w query = none) (clients : Clients) :
    SyncMap.Load (withEntry w query clients) query =
      if clients = [] then none else some clients := by
  unfold withEntry
  split
  · exact h
  · exact SyncMap.Load_append_last w clients h

theorem AddWatcher_withEntry {w : WatchList} {query : DSQLQuery}
    (h : SyncMap.Load w query = none) (clients : Clients) (clientFd : Int) :
    AddWatcher (withEntry w query clients) query clientFd =
      withEntry w query (SyncMap.Store clients clientFd ()) := by
  rw [AddWatcher_eq, Load_withEntry h]
  have hne := Clients_Store_ne_nil clients clientFd
  by_cases hc : clients = []
  · subst hc
    simp only [withEntry, if_true, Option.getD_none]
    rw [if_neg (Clients_Store_ne_nil [] clientFd)]
    exact SyncMap.Store_of_none _ h
  · simp only [withEntry, if_neg hc, if_neg hne, Option.getD_some]
    exact SyncMap.Store_append_last w _ _ h

theorem RemoveWatcher_withEntry {w : WatchList} {query : DSQLQuery}
    (h : SyncMap.Load w query = none) (clients : Clients) (clientFd : Int) :
    RemoveWatcher (withEntry w query clients) query clientFd =
      withEntry w query (SyncMap.Delete clients clientFd) := by
  by_cases hc : clients = []
  · subst hc
    have : withEntry w query [] = w := by simp [withEntry]
    rw [this, RemoveWatcher_of_none clientFd h]
    simp [withEntry, SyncMap.Delete]
  · have hl : SyncMap.Load (withEntry w query clients) query = some clients := by
      rw [Load_withEntry h, if_neg hc]
    rw [RemoveWatcher_of_some clientFd hl]
    have hw : withEntry w query clients = w ++ [(query, clients)] := by
      simp [withEntry, hc]
    rw [hw, SyncMap.Store_append_last w _ _ h]
    by_cases hd : SyncMap.Delete clients clientFd = []
    · rw [if_pos hd, SyncMap.Delete_append_last w _ h]
      simp [withEntry, hd]
    · rw [if_neg hd]
      simp [withEntry, hd]

theorem foldl_AddWatcher_withEntry {w : WatchList} {query : DSQLQuery}
    (h : SyncMap.Load w query = none) (adds : List Int) (clients : Clients) :
    adds.foldl (fun r c => AddWatcher r query c) (withEntry w query clients) =
      withEntry w query (adds.foldl (fun cs c => SyncMap.Store cs c ()) clients) := by
  induction adds generalizing clients with
  | nil => rfl
  | cons c adds ih => simp only [List.foldl_cons, AddWatcher_withEntry h, ih]

theorem foldl_RemoveWatcher_withEntry {w : WatchList} {query : DSQLQuery}
    (h : SyncMap.Load w query = none) (removes : List Int) (clients : Clients) :
    removes.foldl (fun r c => RemoveWatcher r query c) (withEntry w query clients) =
      withEntry w query (removes.foldl (fun cs c => SyncMap.Delete cs c) clients) := by
  induction removes generalizing clients with
  | nil => rfl
  | cons c removes ih => simp only [List.foldl_cons, RemoveWatcher_withEntry h, ih]

theorem keys_foldl_Store (adds : List Int) (clients : Clients) (c : Int)
    (hc : c ∈ SyncMap.keys (adds.foldl (fun cs c => SyncMap.Store cs c ()) clients)) :
    c ∈ SyncMap.keys clients ∨ c ∈ adds := by
  induction adds generalizing clients with
  | nil => left; exact hc
  | cons a adds ih =>
    simp only [List.foldl_cons] at hc
    rcases ih _ hc with h | h
    · rw [SyncMap.keys_Store] at h
      split at h
      · left; exact h
      · rcases List.mem_append.mp h with h | h
        · left; exact h
        · right; simp at h; simp [h]
    · right; exact List.mem_cons_of_mem _ h

theorem keys_foldl_Delete (removes : List Int) (clients : Clients) (c : Int)
    (hc : c ∈ SyncMap.keys (removes.foldl (fun cs c => SyncMap.Delete cs c) clients)) :
    c ∈ SyncMap.keys clients ∧ c ∉ removes := by
  induction removes generalizing clients with
  | nil => exact ⟨hc, by simp⟩
  | cons a removes ih =>
    simp only [List.foldl_cons] at hc
    have h := ih _ hc
    rw [SyncMap.mem_keys_Delete] at h
    refine ⟨h.1.1, ?_⟩
    simp only [List.mem_cons, not_or]
    exact ⟨h.1.2, h.2⟩

/-! ## Lemmas on the eviction strategies -/

namespace SyncMap

variable {K V : Type} [DecidableEq K]

omit [DecidableEq K] in
theorem Range_cons_true {σ : Type} (k : K) (v : V) (m : SyncMap K V)
    (f : K → V → σ → σ × Bool) (s : σ) (h : (f k v s).2 = true) :
    Range ((k, v) :: m) f s = Range m f (f k v s).1 := by
  rw [Range]
  rcases hf : f k v s with ⟨s', b⟩
  rw [hf] at h
  cases b
  · cases h
  · rfl

omit [DecidableEq K] in
theorem Range_cons_false {σ : Type} (k : K) (v : V) (m : SyncMap K V)
    (f : K → V → σ → σ × Bool) (s : σ) (h : (f k v s).2 = false) :
    Range ((k, v) :: m) f s = (f k v s).1 := by
  rw [Range]
  rcases hf : f k v s with ⟨s', b⟩
  rw [hf] at h
  cases b
  · rfl
  · cases h

theorem Delete_head {k : K} {v : V} {m : SyncMap K V} (h : WF ((k, v) :: m)) :
    Delete ((k, v) :: m) k = m := by
  simp only [WF, keys, List.map_cons, List.nodup_cons] at h
  simp only [Delete, if_true]
  exact Delete_of_none ((Load_eq_none_iff m k).mpr h.1)

omit [DecidableEq K] in
theorem WF_tail {e : K × V} {m : SyncMap K V} (h : WF (e :: m)) : WF m := by
  simp only [WF, keys, List.map_cons, List.nodup_cons] at h
  exact h.2

theorem Load_drop_of_mem {m : SyncMap K V} (hwf : WF m) (n : Nat) {key : K}
    (h : key ∈ (keys m).take n) : Load (m.drop n) key = none := by
  induction m generalizing n with
  | nil => simp [keys] at h
  | cons e m ih =>
    obtain ⟨k, v⟩ := e
    cases n with
    | zero => simp at h
    | succ n =>
      simp only [keys, List.map_cons, List.take_succ_cons, List.mem_cons] at h
      simp only [List.drop_succ_cons]
      rcases h with h | h
      · subst h
        rw [Load_eq_none_iff]
        intro hmem
        simp only [WF, keys, List.map_cons, List.nodup_cons] at hwf
        apply hwf.1
        simp only [keys, List.map_drop] at hmem
        exact List.mem_of_mem_drop hmem
      · exact ih (WF_tail hwf) n h

theorem Load_drop_of_not_mem (m : SyncMap K V) (n : Nat) {key : K}
    (h : key ∉ (keys m).take n) : Load (m.drop n) key = Load m key := by
  induction m generalizing n with
  | nil => simp
  | cons e m ih =>
    obtain ⟨k, v⟩ := e
    cases n with
    | zero => simp
    | succ n =>
      simp only [keys, List.map_cons, List.take_succ_cons, List.mem_cons, not_or] at h
      have hk : ¬ k = key := fun hk => h.1 hk.symm
      simp only [List.drop_succ_cons, Load, hk, if_false]
      exact ih n h.2

theorem length_Delete_le (m : SyncMap K V) (key : K) : (Delete m key).length ≤ m.length :=
  (Delete_sublist m key).length_le

theorem length_Delete_ge {m : SyncMap K V} (hwf : WF m) (key : K) :
    m.length ≤ (Delete m key).length + 1 := by
  induction m with
  | nil => simp
  | cons e m ih =>
    obtain ⟨k, v⟩ := e
    by_cases hk : k = key
    · subst hk
      rw [Delete_head hwf]
      simp
    · simp only [Delete, hk, if_false, List.length_cons]
      have := ih (WF_tail hwf)
      omega

end SyncMap

theorem wrapInt64_of_range {z : Int} (h1 : -2 ^ 63 ≤ z) (h2 : z < 2 ^ 63) :
    wrapInt64 z = z := by
  unfold wrapInt64
  omega

theorem wrapInt16_le {z : Int} (h : 0 ≤ z) : wrapInt16 z ≤ z := by
  unfold wrapInt16
  omega

theorem evictFirst_cons {k : String} {obj : Obj} {rest : List (String × Obj)}
    (hs : SyncMap.WF ((k, obj) :: rest)) : evictFirst ⟨(k, obj) :: rest⟩ = ⟨rest⟩ := by
  unfold evictFirst Store.All
  rw [SyncMap.Range_cons_false _ _ _ _ _ rfl]
  simp only [Store.delByPtr]
  rw [SyncMap.Delete_head hs]

theorem evictAllkeysRandom_eq (cfg : Config) (store : Store) :
    evictAllkeysRandom cfg store =
      (SyncMap.Range store.store randomVisitor (store, wrapInt64 (truncate cfg.target))).1 :=
  rfl

theorem randomLoop_drop (l : List (String × Obj)) (hl : SyncMap.WF l) (ec : Int)
    (h1 : -2 ^ 63 < ec) (h2 : ec < 2 ^ 63) :
    (SyncMap.Range l randomVisitor (⟨l⟩, ec)).1 = ⟨l.drop (max ec 1).toNat⟩ := by
  induction l generalizing ec with
  | nil => simp [SyncMap.Range]
  | cons e rest ih =>
    obtain ⟨k, obj⟩ := e
    have hw : wrapInt64 (ec - 1) = ec - 1 := wrapInt64_of_range (by omega) (by omega)
    have hdel : Store.delByPtr ⟨(k, obj) :: rest⟩ k = ⟨rest⟩ := by
      simp only [Store.delByPtr]
      rw [SyncMap.Delete_head hl]
    by_cases hc : ec - 1 > 0
    · rw [SyncMap.Range_cons_true]
      · simp only [randomVisitor, hw, hdel]
        rw [ih (SyncMap.WF_tail hl) (ec - 1) (by omega) (by omega)]
        have h3 : (max ec 1).toNat = (max (ec - 1) 1).toNat + 1 := by omega
        rw [h3, List.drop_succ_cons]
      · simp only [randomVisitor, hw]
        exact decide_eq_true hc
    · rw [SyncMap.Range_cons_false]
      · simp only [randomVisitor, hdel]
        have h3 : (max ec 1).toNat = 1 := by omega
        rw [h3]
        rfl
      · simp only [randomVisitor, hw]
        exact decide_eq_false hc

/-! ### `float64` rounding -/

theorem roundTiesEven_intCast (n : Int) : roundTiesEven (n : ℚ) = n := by
  unfold roundTiesEven
  simp

theorem floor_le_roundTiesEven (x : ℚ) : ⌊x⌋ ≤ roundTiesEven x := by
  unfold roundTiesEven
  split
  · exact le_refl _
  · split
    · omega
    · split <;> omega

theorem float64Ulp_ge (x : ℚ) : -1074 ≤ float64Ulp x := by
  unfold float64Ulp
  omega

theorem two_zpow_pos (z : Int) : (0 : ℚ) < 2 ^ z := zpow_pos (by norm_num) z

theorem two_zpow_le {a b : Int} (h : a ≤ b) : (2 : ℚ) ^ a ≤ 2 ^ b :=
  zpow_le_zpow_right₀ (by norm_num) h

theorem log_lt_of_abs_lt {x : ℚ} (hx : x ≠ 0) {z : Int} (h : |x| < 2 ^ z) :
    Int.log 2 |x| < z := by
  have := (Int.lt_zpow_iff_log_lt (R := ℚ) (b := 2) (by norm_num) (x := z) (abs_pos.mpr hx)).mp
    (by simpa using h)
  exact this

theorem le_log_of_le_abs {x : ℚ} (hx : x ≠ 0) {z : Int} (h : 2 ^ z ≤ |x|) :
    z ≤ Int.log 2 |x| := by
  have := (Int.zpow_le_iff_le_log (R := ℚ) (b := 2) (by norm_num) (x := z) (abs_pos.mpr hx)).mp
    (by simpa using h)
  exact this

theorem zpow_log_le_abs {x : ℚ} (hx : x ≠ 0) : (2 : ℚ) ^ Int.log 2 |x| ≤ |x| := by
  have := Int.zpow_log_le_self (R := ℚ) (b := 2) (by norm_num) (abs_pos.mpr hx)
  simpa using this

theorem float64Round_zero : float64Round 0 = 0 := by
  unfold float64Round
  simp [roundTiesEven]

/-- A rational `m * 2^k` with `|m| < 2^53` and `k ≥ -1074` is a `float64`. -/
theorem float64Round_scaled (m k : Int) (hm : |m| < 2 ^ 53) (hk : -1074 ≤ k) :
    float64Round ((m : ℚ) * 2 ^ k) = (m : ℚ) * 2 ^ k := by
  by_cases hm0 : m = 0
  · subst hm0
    simp [float64Round_zero]
  · have hx : (m : ℚ) * 2 ^ k ≠ 0 :=
      mul_ne_zero (by exact_mod_cast hm0) (two_zpow_pos k).ne'
    have habs : |(m : ℚ) * 2 ^ k| < 2 ^ (k + 53) := by
      rw [abs_mul, abs_of_pos (two_zpow_pos k), zpow_add₀ (by norm_num : (2 : ℚ) ≠ 0),
        mul_comm ((2 : ℚ) ^ k)]
      apply mul_lt_mul_of_pos_right _ (two_zpow_pos k)
      have h53 : ((|m| : Int) : ℚ) < ((2 ^ 53 : Int) : ℚ) := by exact_mod_cast hm
      have hz : (2 : ℚ) ^ (53 : Int) = ((2 ^ 53 : Int) : ℚ) := by norm_num
      rw [hz]
      simpa using h53
    have hlog := log_lt_of_abs_lt hx habs
    have hs : float64Ulp ((m : ℚ) * 2 ^ k) ≤ k := by
      unfold float64Ulp
      omega
    obtain ⟨n, hn⟩ := Int.eq_ofNat_of_zero_le (sub_nonneg.mpr hs)
    have hdiv : (m : ℚ) * 2 ^ k / 2 ^ float64Ulp ((m : ℚ) * 2 ^ k) = ((m * 2 ^ n : Int) : ℚ) := by
      rw [mul_div_assoc, ← zpow_sub₀ (by norm_num : (2 : ℚ) ≠ 0), hn, zpow_natCast]
      push_cast
      rfl
    unfold float64Round
    rw [hdiv, roundTiesEven_intCast]
    push_cast
    rw [mul_assoc, ← zpow_natCast, ← hn, ← zpow_add₀ (by norm_num : (2 : ℚ) ≠ 0)]
    congr 2
    omega

/-- Rounding inside a known binade. -/
theorem float64Round_binade (x : ℚ) (e : Int) (h1 : 2 ^ e ≤ |x|) (h2 : |x| < 2 ^ (e + 1))
    (he : -1022 ≤ e) :
    float64Round x = (roundTiesEven (x / 2 ^ (e - 52)) : ℚ) * 2 ^ (e - 52) := by
  have hx : x ≠ 0 := by
    intro h
    rw [h, abs_zero] at h1
    exact absurd h1 (not_le.mpr (two_zpow_pos e))
  have hl1 := le_log_of_le_abs hx h1
  have hl2 := log_lt_of_abs_lt hx h2
  have hs : float64Ulp x = e - 52 := by
    unfold float64Ulp
    omega
  unfold float64Round
  rw [hs]

theorem float64Round_pos (x : ℚ) (hx : 2 ^ (-1074 : Int) ≤ x) : 0 < float64Round x := by
  have hpos : 0 < x := lt_of_lt_of_le (two_zpow_pos _) hx
  have hne : x ≠ 0 := hpos.ne'
  have hs : (2 : ℚ) ^ float64Ulp x ≤ x := by
    by_cases hl : -1022 ≤ Int.log 2 |x|
    · have h1 : float64Ulp x ≤ Int.log 2 |x| := by unfold float64Ulp; omega
      calc (2 : ℚ) ^ float64Ulp x ≤ 2 ^ Int.log 2 |x| := two_zpow_le h1
        _ ≤ |x| := zpow_log_le_abs hne
        _ = x := abs_of_pos hpos
    · have h1 : float64Ulp x = -1074 := by unfold float64Ulp; omega
      rw [h1]
      exact hx
  have hy : (1 : ℚ) ≤ x / 2 ^ float64Ulp x := by
    rw [le_div_iff₀ (two_zpow_pos _), one_mul]
    exact hs
  have hfl : (1 : Int) ≤ ⌊x / 2 ^ float64Ulp x⌋ := Int.le_floor.mpr (by simpa using hy)
  have hr := floor_le_roundTiesEven (x / 2 ^ float64Ulp x)
  unfold float64Round
  apply mul_pos _ (two_zpow_pos _)
  have : (1 : Int) ≤ roundTiesEven (x / 2 ^ float64Ulp x) := le_trans hfl hr
  exact_mod_cast lt_of_lt_of_le zero_lt_one this

/-- A positive `float64` is at least the smallest subnormal. -/
theorem float64_pos_ge (r : ℚ) (hr : float64Round r = r) (hpos : 0 < r) :
    2 ^ (-1074 : Int) ≤ r := by
  have h := hr
  unfold float64Round at h
  have hN : 0 < (roundTiesEven (r / 2 ^ float64Ulp r) : ℚ) := by
    by_contra hcon
    have hle : (roundTiesEven (r / 2 ^ float64Ulp r) : ℚ) ≤ 0 := not_lt.mp hcon
    have : (roundTiesEven (r / 2 ^ float64Ulp r) : ℚ) * 2 ^ float64Ulp r ≤ 0 :=
      mul_nonpos_of_nonpos_of_nonneg hle (two_zpow_pos _).le
    rw [h] at this
    exact absurd hpos (not_lt.mpr this)
  have hN1 : (1 : ℚ) ≤ (roundTiesEven (r / 2 ^ float64Ulp r) : ℚ) := by
    have : (0 : Int) < roundTiesEven (r / 2 ^ float64Ulp r) := by exact_mod_cast hN
    exact_mod_cast (show (1 : Int) ≤ roundTiesEven (r / 2 ^ float64Ulp r) by omega)
  calc (2 : ℚ) ^ (-1074 : Int) ≤ 2 ^ float64Ulp r := two_zpow_le (float64Ulp_ge r)
    _ = 1 * 2 ^ float64Ulp r := (one_mul _).symm
    _ ≤ (roundTiesEven (r / 2 ^ float64Ulp r) : ℚ) * 2 ^ float64Ulp r :=
        mul_le_mul_of_nonneg_right hN1 (two_zpow_pos _).le
    _ = r := h

theorem one_le_float64Round (x : ℚ) (hx : 1 ≤ x) : 1 ≤ float64Round x := by
  have hpos : 0 < x := lt_of_lt_of_le zero_lt_one hx
  have hne : x ≠ 0 := hpos.ne'
  have habs : |x| = x := abs_of_pos hpos
  have hl0 : (0 : Int) ≤ Int.log 2 |x| := le_log_of_le_abs hne (by rw [habs]; simpa using hx)
  have hs : float64Ulp x = Int.log 2 |x| - 52 := by unfold float64Ulp; omega
  have hy : ((2 ^ 52 : Int) : ℚ) ≤ x / 2 ^ float64Ulp x := by
    rw [le_div_iff₀ (two_zpow_pos _), hs]
    have h2 : ((2 ^ 52 : Int) : ℚ) = (2 : ℚ) ^ (52 : Int) := by norm_num
    rw [h2, ← zpow_add₀ (by norm_num : (2 : ℚ) ≠ 0)]
    have h3 : (52 : Int) + (Int.log 2 |x| - 52) = Int.log 2 |x| := by omega
    rw [h3]
    calc (2 : ℚ) ^ Int.log 2 |x| ≤ |x| := zpow_log_le_abs hne
      _ = x := habs
  have hfl : (2 ^ 52 : Int) ≤ ⌊x / 2 ^ float64Ulp x⌋ := Int.le_floor.mpr hy
  have hr := floor_le_roundTiesEven (x / 2 ^ float64Ulp x)
  have hN : ((2 ^ 52 : Int) : ℚ) ≤ (roundTiesEven (x / 2 ^ float64Ulp x) : ℚ) := by
    exact_mod_cast le_trans hfl hr
  unfold float64Round
  calc (1 : ℚ) = 2 ^ (0 : Int) := by norm_num
    _ ≤ 2 ^ Int.log 2 |x| := two_zpow_le hl0
    _ = ((2 ^ 52 : Int) : ℚ) * 2 ^ float64Ulp x := by
        have h2 : ((2 ^ 52 : Int) : ℚ) = (2 : ℚ) ^ (52 : Int) := by norm_num
        rw [h2, ← zpow_add₀ (by norm_num : (2 : ℚ) ≠ 0), hs]
        congr 1
        omega
    _ ≤ (roundTiesEven (x / 2 ^ float64Ulp x) : ℚ) * 2 ^ float64Ulp x :=
        mul_le_mul_of_nonneg_right hN (two_zpow_pos _).le

theorem roundTiesEven_eq_of_lt (x : ℚ) (n : Int) (h1 : (n : ℚ) - 1 / 2 < x)
    (h2 : x < (n : ℚ) + 1 / 2) : roundTiesEven x = n := by
  unfold roundTiesEven
  by_cases hx : (n : ℚ) ≤ x
  · have hf : ⌊x⌋ = n := Int.floor_eq_iff.mpr ⟨hx, by linarith⟩
    rw [hf, if_pos (by linarith)]
  · have hf : ⌊x⌋ = n - 1 := Int.floor_eq_iff.mpr ⟨by push_cast; linarith, by push_cast; linarith⟩
    rw [hf]
    have h3 : ¬ (x - ((n - 1 : Int) : ℚ) < 1 / 2) := by push_cast; linarith
    have h4 : 1 / 2 < x - ((n - 1 : Int) : ℚ) := by push_cast; linarith
    rw [if_neg h3, if_pos h4]
    omega

theorem target_pos {cfg : Config} (hcfg : cfg.WF) (hratio : IsFloat64 cfg.EvictionRatio) :
    0 < cfg.target := by
  obtain ⟨h0, -, h2, -⟩ := hcfg
  have hk : (1 : ℚ) ≤ (cfg.KeysLimit : ℚ) := by exact_mod_cast (show (1 : Int) ≤ cfg.KeysLimit by omega)
  have hfl : (1 : ℚ) ≤ float64Round (cfg.KeysLimit : ℚ) := one_le_float64Round _ hk
  have hr : (2 : ℚ) ^ (-1074 : Int) ≤ cfg.EvictionRatio := float64_pos_ge _ hratio h0
  unfold Config.target
  apply float64Round_pos
  calc (2 : ℚ) ^ (-1074 : Int) ≤ cfg.EvictionRatio := hr
    _ = cfg.EvictionRatio * 1 := (mul_one _).symm
    _ ≤ cfg.EvictionRatio * float64Round (cfg.KeysLimit : ℚ) :=
        mul_le_mul_of_nonneg_left hfl h0.le

theorem floor_target_bounds {cfg : Config} (hcfg : cfg.WF)
    (hratio : IsFloat64 cfg.EvictionRatio) :
    0 ≤ ⌊cfg.target⌋ ∧ 0 < ⌈cfg.target⌉ ∧ ⌊cfg.target⌋ ≤ ⌈cfg.target⌉ := by
  have hpos := target_pos hcfg hratio
  exact ⟨Int.floor_nonneg.mpr hpos.le, Int.ceil_pos.mpr hpos, Int.floor_le_ceil _⟩

/-- The `float64` product is exact when the limit and the exact product are
`float64` values. -/
theorem target_exact (cfg : Config) (m₁ k₁ m₂ k₂ : Int)
    (h1 : (cfg.KeysLimit : ℚ) = (m₁ : ℚ) * 2 ^ k₁) (hm1 : |m₁| < 2 ^ 53) (hk1 : -1074 ≤ k₁)
    (h2 : cfg.EvictionRatio * (cfg.KeysLimit : ℚ) = (m₂ : ℚ) * 2 ^ k₂) (hm2 : |m₂| < 2 ^ 53)
    (hk2 : -1074 ≤ k₂) : cfg.target = cfg.EvictionRatio * (cfg.KeysLimit : ℚ) := by
  unfold Config.target
  have e1 : float64Round (cfg.KeysLimit : ℚ) = (cfg.KeysLimit : ℚ) := by
    rw [h1]
    exact float64Round_scaled m₁ k₁ hm1 hk1
  rw [e1, h2]
  exact float64Round_scaled m₂ k₂ hm2 hk2

theorem truncate_of_floor_nonneg {x : ℚ} (h : 0 ≤ ⌊x⌋) : truncate x = ⌊x⌋ := by
  unfold truncate
  rw [if_pos (Int.floor_nonneg.mp h)]

theorem evictAllkeysRandom_drop {cfg : Config} (h0 : 0 ≤ ⌊cfg.target⌋)
    (h1 : ⌊cfg.target⌋ < 2 ^ 63) {store : Store} (hs : store.WF) :
    evictAllkeysRandom cfg store = ⟨store.store.drop (max ⌊cfg.target⌋ 1).toNat⟩ := by
  rw [evictAllkeysRandom_eq, truncate_of_floor_nonneg h0,
    wrapInt64_of_range (by omega) h1]
  exact randomLoop_drop store.store hs _ (by omega) h1

theorem evictLRULoop_length (n : Nat) (store : Store) (hs : store.WF) (ePool : EvictionPool) :
    (evictLRULoop n store ePool).1.WF ∧
    (evictLRULoop n store ePool).1.store.length ≤ store.store.length ∧
    store.store.length ≤ (evictLRULoop n store ePool).1.store.length + n := by
  induction n generalizing store ePool with
  | zero => exact ⟨hs, le_refl _, le_refl _⟩
  | succ n ih =>
    unfold evictLRULoop
    split
    · rcases hp : ePool.pool with _ | ⟨item, rest⟩
      · simp only [EvictionPool.Pop, hp]
        exact ⟨hs, le_refl _, Nat.le_add_right _ _⟩
      · simp only [EvictionPool.Pop, hp]
        have hwf : (store.DelByPtr item.keyPtr).WF := SyncMap.WF_Delete hs _
        obtain ⟨h1, h2, h3⟩ := ih (store.DelByPtr item.keyPtr) hwf ⟨rest⟩
        have h4 := SyncMap.length_Delete_le store.store item.keyPtr
        have h5 := SyncMap.length_Delete_ge hs item.keyPtr
        simp only [Store.DelByPtr, Store.delByPtr] at h2 h3 ⊢
        exact ⟨h1, by omega, by omega⟩
    · exact ⟨hs, le_refl _, Nat.le_add_right _ _⟩

/-! ## Lemmas on the dispatch step -/

theorem Load_RemoveWatcher_other (w : WatchList) {query query' : DSQLQuery} (clientFd : Int)
    (hne : query' ≠ query) :
    SyncMap.Load (RemoveWatcher w query' clientFd) query = SyncMap.Load w query := by
  cases h : SyncMap.Load w query' with
  | none => rw [RemoveWatcher_of_none clientFd h]
  | some clients =>
    rw [RemoveWatcher_of_some clientFd h]
    split
    · rw [SyncMap.Load_Delete_other _ hne, SyncMap.Load_Store_other _ _ hne]
    · rw [SyncMap.Load_Store_other _ _ hne]

theorem mem_clientsOf_RemoveWatcher (w : WatchList) (query : DSQLQuery) (clientFd c : Int) :
    c ∈ clientsOf (RemoveWatcher w query clientFd) query ↔
      c ∈ clientsOf w query ∧ c ≠ clientFd := by
  cases h : SyncMap.Load w query with
  | none =>
    rw [RemoveWatcher_of_none clientFd h]
    simp [clientsOf, h]
  | some clients =>
    rw [RemoveWatcher_of_some clientFd h]
    by_cases hd : SyncMap.Delete clients clientFd = []
    · rw [if_pos hd]
      have hk := @SyncMap.mem_keys_Delete _ _ _ clients clientFd c
      rw [hd] at hk
      simp only [clientsOf, SyncMap.Load_Delete_self, h]
      rw [← hk]
      simp [SyncMap.keys]
    · rw [if_neg hd]
      simp only [clientsOf, SyncMap.Load_Store_self, h]
      exact SyncMap.mem_keys_Delete

theorem NoEmptyEntry_RemoveWatcher (w : WatchList) (query : DSQLQuery) (clientFd : Int) :
    NoEmptyEntry (RemoveWatcher w query clientFd) query := by
  unfold NoEmptyEntry
  cases h : SyncMap.Load w query with
  | none => left; rw [RemoveWatcher_of_none clientFd h]; exact h
  | some clients =>
    rw [RemoveWatcher_of_some clientFd h]
    by_cases hd : SyncMap.Delete clients clientFd = []
    · left; rw [if_pos hd]; exact SyncMap.Load_Delete_self _ _
    · right
      rw [if_neg hd]
      simp only [clientsOf, SyncMap.Load_Store_self]
      simpa [SyncMap.keys] using hd

theorem SyncMap.Range_foldl {K V σ : Type} (m : SyncMap K V) (f : K → V → σ → σ × Bool)
    (hf : ∀ k v s, (f k v s).2 = true) (s : σ) :
    SyncMap.Range m f s = m.foldl (fun s e => (f e.1 e.2 s).1) s := by
  induction m generalizing s with
  | nil => rfl
  | cons e m ih =>
    obtain ⟨k, v⟩ := e
    rw [SyncMap.Range_cons_true k v m f s (hf k v s), ih]
    rfl

theorem visitQuery_continue {R : Type} (o : Oracles R) (event : WatchEvent)
    (query : DSQLQuery) (clients : Clients) (st : DispatchState) :
    (visitQuery o event query clients st).2 = true := by
  unfold visitQuery
  split
  · split <;> rfl
  · rfl

theorem watchKeysEvent_eq {R : Type} (o : Oracles R) (w : WatchList) (event : WatchEvent) :
    watchKeysEvent o w event = w.foldl (visit o event) ⟨w, []⟩ := by
  unfold watchKeysEvent
  rw [SyncMap.Range_foldl w (visitQuery o event) (visitQuery_continue o event)]
  rfl

theorem visit_of_delivers {R : Type} (o : Oracles R) (event : WatchEvent)
    (st : DispatchState) (e : DSQLQuery × Clients) {queryResult : R}
    (hmatch : o.WildCardMatch e.1.KeyRegex event.Key = true)
    (hexec : o.ExecuteQuery e.1 = .ok queryResult) :
    visit o event st e = notifyAll o e.1 queryResult e.2 st := by
  unfold visit visitQuery notifyAll
  rw [if_pos hmatch, hexec]
  simp only
  rw [SyncMap.Range_continue e.2 (fun clientFd _ st' => notifyClient o e.1 queryResult clientFd st')]

theorem visit_of_not_delivers {R : Type} (o : Oracles R) (event : WatchEvent)
    (st : DispatchState) (e : DSQLQuery × Clients) (h : delivers o event e.1 = false) :
    visit o event st e = st := by
  unfold visit visitQuery
  unfold delivers at h
  by_cases hm : o.WildCardMatch e.1.KeyRegex event.Key = true
  · rw [if_pos hm]
    rw [hm] at h
    cases hx : o.ExecuteQuery e.1 with
    | error err => rfl
    | ok r => rw [hx] at h; simp at h
  · rw [if_neg hm]

theorem delivers_iff {R : Type} (o : Oracles R) (event : WatchEvent) (query : DSQLQuery) :
    delivers o event query = true ↔
      o.WildCardMatch query.KeyRegex event.Key = true ∧
        ∃ queryResult, o.ExecuteQuery query = .ok queryResult := by
  unfold delivers
  cases hx : o.ExecuteQuery query with
  | error err => simp
  | ok r => simp

theorem notifyAll_writes {R : Type} (o : Oracles R) (query : DSQLQuery) (queryResult : R)
    (clients : Clients) (st : DispatchState) :
    (notifyAll o query queryResult clients st).writes =
      st.writes ++ (SyncMap.keys clients).map (fun c => (query, c)) := by
  unfold notifyAll
  induction clients generalizing st with
  | nil => simp [SyncMap.keys]
  | cons e clients ih =>
    rw [List.foldl_cons, ih]
    have : (notifyClient o query queryResult e.1 st).writes = st.writes ++ [(query, e.1)] := by
      unfold notifyClient
      split <;> rfl
    rw [this]
    simp [SyncMap.keys]

theorem notifyAll_Load_other {R : Type} (o : Oracles R) {query query' : DSQLQuery}
    (queryResult : R) (clients : Clients) (st : DispatchState) (hne : query' ≠ query) :
    SyncMap.Load (notifyAll o query' queryResult clients st).WatchList query =
      SyncMap.Load st.WatchList query := by
  unfold notifyAll
  induction clients generalizing st with
  | nil => rfl
  | cons e clients ih =>
    rw [List.foldl_cons, ih]
    unfold notifyClient
    split
    · rfl
    · exact Load_RemoveWatcher_other _ _ hne

theorem notifyAll_mem {R : Type} (o : Oracles R) (query : DSQLQuery) (queryResult : R)
    (clients : Clients) (st : DispatchState) (c : Int) :
    c ∈ clientsOf (notifyAll o query queryResult clients st).WatchList query ↔
      c ∈ clientsOf st.WatchList query ∧
        ¬ (c ∈ SyncMap.keys clients ∧ o.Write query c queryResult = false) := by
  unfold notifyAll
  induction clients generalizing st with
  | nil => simp [SyncMap.keys]
  | cons e clients ih =>
    rw [List.foldl_cons, ih]
    simp only [SyncMap.keys, List.map_cons, List.mem_cons]
    unfold notifyClient
    by_cases hw : o.Write query e.1 queryResult = true
    · rw [if_pos hw]
      simp only
      constructor
      · rintro ⟨h1, h2⟩
        refine ⟨h1, ?_⟩
        rintro ⟨h3 | h3, h4⟩
        · rw [h3, hw] at h4; cases h4
        · exact h2 ⟨h3, h4⟩
      · rintro ⟨h1, h2⟩
        exact ⟨h1, fun h => h2 ⟨Or.inr h.1, h.2⟩⟩
    · rw [if_neg hw]
      simp only [mem_clientsOf_RemoveWatcher]
      have hw' : o.Write query e.1 queryResult = false := by simpa using hw
      constructor
      · rintro ⟨⟨h1, h2⟩, h3⟩
        refine ⟨h1, ?_⟩
        rintro ⟨h4 | h4, h5⟩
        · exact h2 h4
        · exact h3 ⟨h4, h5⟩
      · rintro ⟨h1, h2⟩
        refine ⟨⟨h1, ?_⟩, fun h => h2 ⟨Or.inr h.1, h.2⟩⟩
        intro h
        exact h2 ⟨Or.inl h, by rw [h]; exact hw'⟩

theorem notifyAll_NoEmptyEntry_of {R : Type} (o : Oracles R) (query : DSQLQuery)
    (queryResult : R) (clients : Clients) (st : DispatchState)
    (h : NoEmptyEntry st.WatchList query) :
    NoEmptyEntry (notifyAll o query queryResult clients st).WatchList query := by
  unfold notifyAll
  induction clients generalizing st with
  | nil => exact h
  | cons e clients ih =>
    rw [List.foldl_cons]
    apply ih
    unfold notifyClient
    split
    · exact h
    · exact NoEmptyEntry_RemoveWatcher _ _ _

theorem notifyAll_NoEmptyEntry {R : Type} (o : Oracles R) (query : DSQLQuery)
    (queryResult : R) (clients : Clients) (st : DispatchState)
    (h : ∃ c ∈ SyncMap.keys clients, o.Write query c queryResult = false) :
    NoEmptyEntry (notifyAll o query queryResult clients st).WatchList query := by
  induction clients generalizing st with
  | nil => simp [SyncMap.keys] at h
  | cons e clients ih =>
    have hstep : notifyAll o query queryResult (e :: clients) st =
        notifyAll o query queryResult clients (notifyClient o query queryResult e.1 st) := rfl
    rw [hstep]
    by_cases hw : o.Write query e.1 queryResult = true
    · apply ih
      obtain ⟨c, hc, hcw⟩ := h
      simp only [SyncMap.keys, List.map_cons, List.mem_cons] at hc
      rcases hc with hc | hc
      · rw [hc, hw] at hcw; cases hcw
      · exact ⟨c, hc, hcw⟩
    · apply notifyAll_NoEmptyEntry_of
      unfold notifyClient
      rw [if_neg hw]
      exact NoEmptyEntry_RemoveWatcher _ _ _

theorem visit_Load_other {R : Type} (o : Oracles R) (event : WatchEvent)
    (st : DispatchState) (e : DSQLQuery × Clients) {query : DSQLQuery} (hne : e.1 ≠ query) :
    SyncMap.Load (visit o event st e).WatchList query = SyncMap.Load st.WatchList query := by
  cases hd : delivers o event e.1 with
  | false => rw [visit_of_not_delivers o event st e hd]
  | true =>
    obtain ⟨hm, r, hx⟩ := (delivers_iff o event e.1).mp hd
    rw [visit_of_delivers o event st e hm hx]
    exact notifyAll_Load_other o r e.2 st hne

theorem foldl_visit_Load_other {R : Type} (o : Oracles R) (event : WatchEvent)
    (l : WatchList) (st : DispatchState) {query : DSQLQuery}
    (h : query ∉ SyncMap.keys l) :
    SyncMap.Load (l.foldl (visit o event) st).WatchList query =
      SyncMap.Load st.WatchList query := by
  induction l generalizing st with
  | nil => rfl
  | cons e l ih =>
    simp only [SyncMap.keys, List.map_cons, List.mem_cons, not_or] at h
    rw [List.foldl_cons, ih _ h.2]
    exact visit_Load_other o event st e (fun he => h.1 he.symm)

theorem foldl_visit_Load_inactive {R : Type} (o : Oracles R) (event : WatchEvent)
    (l : WatchList) (st : DispatchState) {query : DSQLQuery}
    (h : delivers o event query = false) :
    SyncMap.Load (l.foldl (visit o event) st).WatchList query =
      SyncMap.Load st.WatchList query := by
  induction l generalizing st with
  | nil => rfl
  | cons e l ih =>
    rw [List.foldl_cons, ih]
    by_cases he : e.1 = query
    · rw [visit_of_not_delivers o event st e (by rw [he]; exact h)]
    · exact visit_Load_other o event st e he

theorem foldl_visit_Load {R : Type} (o : Oracles R) (event : WatchEvent)
    (l : WatchList) (hl : SyncMap.WF l) (st : DispatchState) {query : DSQLQuery}
    {clients : Clients} (h : SyncMap.Load l query = some clients) :
    ∃ st₀ : DispatchState,
      SyncMap.Load st₀.WatchList query = SyncMap.Load st.WatchList query ∧
      SyncMap.Load (l.foldl (visit o event) st).WatchList query =
        SyncMap.Load (visit o event st₀ (query, clients)).WatchList query := by
  induction l generalizing st with
  | nil => simp [SyncMap.Load] at h
  | cons e l ih =>
    obtain ⟨k, v⟩ := e
    by_cases hk : k = query
    · subst hk
      simp only [SyncMap.Load, if_true, Option.some.injEq] at h
      subst h
      refine ⟨st, rfl, ?_⟩
      rw [List.foldl_cons]
      apply foldl_visit_Load_other
      simp only [SyncMap.WF, SyncMap.keys, List.map_cons, List.nodup_cons] at hl
      exact hl.1
    · simp only [SyncMap.Load, hk, if_false] at h
      obtain ⟨st₀, h1, h2⟩ := ih (SyncMap.WF_tail hl) (visit o event st (k, v)) h
      refine ⟨st₀, ?_, ?_⟩
      · rw [h1]
        exact visit_Load_other o event st (k, v) hk
      · rw [List.foldl_cons]
        exact h2

theorem clientsOf_congr {w w' : WatchList} {query : DSQLQuery}
    (h : SyncMap.Load w query = SyncMap.Load w' query) :
    clientsOf w query = clientsOf w' query := by
  unfold clientsOf
  rw [h]

theorem visit_writes {R : Type} (o : Oracles R) (event : WatchEvent)
    (st : DispatchState) (e : DSQLQuery × Clients) :
    (visit o event st e).writes =
      st.writes ++
        (if delivers o event e.1 = true then (SyncMap.keys e.2).map (fun c => (e.1, c))
          else []) := by
  cases hd : delivers o event e.1 with
  | false => rw [visit_of_not_delivers o event st e hd]; simp
  | true =>
    obtain ⟨hm, r, hx⟩ := (delivers_iff o event e.1).mp hd
    rw [visit_of_delivers o event st e hm hx, notifyAll_writes]
    simp

theorem countP_deliveries (k query : DSQLQuery) (c : Int) (cs : List Int) (hcs : cs.Nodup) :
    (cs.map (fun c => (k, c))).countP (fun a => decide (a.1 = query ∧ a.2 = c)) =
      if k = query ∧ c ∈ cs then 1 else 0 := by
  induction cs with
  | nil => simp
  | cons a cs ih =>
    rw [List.nodup_cons] at hcs
    rw [List.map_cons, List.countP_cons, ih hcs.2]
    by_cases hk : k = query
    · by_cases ha : a = c
      · subst ha
        simp [hk, hcs.1]
      · have ha' : ¬ c = a := fun h => ha h.symm
        simp [hk, ha, ha']
    · simp [hk]

theorem RegistryWF_tail {e : DSQLQuery × Clients} {l : WatchList} (h : RegistryWF (e :: l)) :
    RegistryWF l :=
  ⟨SyncMap.WF_tail h.1, fun x hx => h.2 x (List.mem_cons_of_mem _ hx)⟩

theorem foldl_visit_count {R : Type} (o : Oracles R) (event : WatchEvent)
    (l : WatchList) (hl : RegistryWF l) (st : DispatchState) (query : DSQLQuery) (c : Int) :
    attempts (l.foldl (visit o event) st) query c =
      attempts st query c +
        (if delivers o event query = true ∧ c ∈ clientsOf l query then 1 else 0) := by
  induction l generalizing st with
  | nil => simp [clientsOf, SyncMap.Load]
  | cons e l ih =>
    obtain ⟨k, v⟩ := e
    rw [List.foldl_cons, ih (RegistryWF_tail hl)]
    unfold attempts
    rw [visit_writes, List.countP_append]
    have hv : (SyncMap.keys v).Nodup := hl.2 (k, v) (List.mem_cons_self _ _)
    by_cases hk : k = query
    · subst hk
      have hnot : k ∉ SyncMap.keys l := by
        have := hl.1
        simp only [SyncMap.WF, SyncMap.keys, List.map_cons, List.nodup_cons] at this
        exact this.1
      have hnone : SyncMap.Load l k = none := (SyncMap.Load_eq_none_iff l k).mpr hnot
      have h1 : clientsOf l k = [] := by simp [clientsOf, hnone]
      have h2 : clientsOf ((k, v) :: l) k = SyncMap.keys v := by simp [clientsOf, SyncMap.Load]
      rw [h1, h2]
      by_cases hd : delivers o event k = true
      · simp only [hd, if_true, true_and, List.not_mem_nil, if_false, Nat.add_zero]
        rw [countP_deliveries k k c _ hv]
        simp
      · simp [hd]
    · have h2 : clientsOf ((k, v) :: l) query = clientsOf l query := by
        simp [clientsOf, SyncMap.Load, hk]
      rw [h2]
      have h3 : List.countP (fun a => decide (a.1 = query ∧ a.2 = c))
          (if delivers o event k = true then (SyncMap.keys v).map (fun c => (k, c)) else []) = 0 := by
        split
        · rw [countP_deliveries k query c _ hv]
          simp [hk]
        · rfl
      simp only [h3, Nat.add_zero]

theorem mem_clientsOf_registered {w : WatchList} {query : DSQLQuery} {c : Int}
    (h : c ∈ clientsOf w query) : query ∈ SyncMap.keys w := by
  rw [← SyncMap.Load_isSome_iff]
  unfold clientsOf at h
  cases hl : SyncMap.Load w query with
  | none => rw [hl] at h; simp at h
  | some clients => rfl

/-! ## Lemmas on the clock, the frame of the registry and `Store.evict` -/

theorem idleTime_by_elapsed_ticks (lastAccessedAt d : Nat) (hl : lastAccessedAt < 2 ^ 24)
    (hd : d < 2 ^ 24) :
    (lastAccessedAt + d < 2 ^ 24 →
      getIdleTime ((lastAccessedAt + d) % 2 ^ 24) lastAccessedAt = d) ∧
    (2 ^ 24 ≤ lastAccessedAt + d →
      getIdleTime ((lastAccessedAt + d) % 2 ^ 24) lastAccessedAt = d - 1) := by
  unfold getIdleTime uint32Add uint32Sub
  constructor
  · intro h
    rw [if_pos (by omega)]
    omega
  · intro h
    rw [if_neg (by omega)]
    omega

theorem evictLRULoop_nil (n : Nat) (ePool : EvictionPool) :
    (evictLRULoop n ⟨[]⟩ ePool).1 = ⟨[]⟩ := by
  have h := (evictLRULoop_length n ⟨[]⟩ List.nodup_nil ePool).2.1
  have h2 : (evictLRULoop n ⟨[]⟩ ePool).1.store = [] :=
    List.length_eq_zero.mp (by simpa using h)
  cases hr : (evictLRULoop n ⟨[]⟩ ePool).1 with
  | mk l => rw [hr] at h2; simp only at h2; rw [h2]

theorem evict_empty (cfg : Config) (clock : Nat) (ePool : EvictionPool) :
    (Store.evict cfg clock ⟨[]⟩ ePool).1 = ⟨[]⟩ := by
  unfold Store.evict
  split
  · rfl
  · rfl
  · exact evictLRULoop_nil _ _
  · rfl

theorem evict_simple_first (cfg : Config) (clock : Nat) (store : Store) (ePool : EvictionPool)
    (h : cfg.EvictionStrategy = "simple-first") :
    Store.evict cfg clock store ePool = (evictFirst store, ePool) := by
  unfold Store.evict
  rw [h]
  rfl

theorem evict_unknown (cfg : Config) (clock : Nat) (store : Store) (ePool : EvictionPool)
    (h1 : cfg.EvictionStrategy ≠ "simple-first") (h2 : cfg.EvictionStrategy ≠ "allkeys-random")
    (h3 : cfg.EvictionStrategy ≠ "allkeys-lru") :
    Store.evict cfg clock store ePool = (store, ePool) := by
  unfold Store.evict
  split
  · rename_i h; exact absurd h h1
  · rename_i h; exact absurd h h2
  · rename_i h; exact absurd h h3
  · rfl

theorem mem_clientsOf_AddWatcher (w : WatchList) (query : DSQLQuery) (clientFd c : Int)
    (hne : c ≠ clientFd) :
    c ∈ clientsOf (AddWatcher w query clientFd) query ↔ c ∈ clientsOf w query := by
  rw [AddWatcher_eq]
  simp only [clientsOf, SyncMap.Load_Store_self]
  rw [SyncMap.keys_Store]
  cases h : SyncMap.Load w query with
  | none =>
    simp [SyncMap.keys, hne]
  | some clients =>
    simp only [Option.getD_some]
    split
    · rfl
    · simp [hne]

theorem Load_AddWatcher_other (w : WatchList) {query query' : DSQLQuery} (clientFd : Int)
    (hne : query' ≠ query) :
    SyncMap.Load (AddWatcher w query' clientFd) query = SyncMap.Load w query := by
  rw [AddWatcher_eq]
  exact SyncMap.Load_Store_other _ _ hne

/-! ## Lemmas on `populateEvictionPool` -/

theorem populateEvictionPool_eq (clock : Nat) (store : Store) (ePool : EvictionPool) :
    populateEvictionPool clock store ePool =
      (SyncMap.Range store.store (populateVisitor clock store) (ePool, 5)).1 := rfl

theorem populateLog_erase (clock : Nat) (store : Store) (l : List (String × Obj))
    (st : (EvictionPool × Int) × List (String × Nat)) :
    (SyncMap.Range l (populateVisitorLog clock store) st).1 =
      SyncMap.Range l (populateVisitor clock store) st.1 := by
  induction l generalizing st with
  | nil => rfl
  | cons e l ih =>
    obtain ⟨k, obj⟩ := e
    cases hg : store.Get k with
    | none =>
      by_cases hc : st.1.2 > 0
      · rw [SyncMap.Range_cons_true _ _ _ _ _ (by simp [populateVisitorLog, hg, hc]),
          SyncMap.Range_cons_true _ _ _ _ _ (by simp [populateVisitor, hg, hc]), ih]
        simp [populateVisitorLog, populateVisitor, hg]
      · rw [SyncMap.Range_cons_false _ _ _ _ _ (by simp [populateVisitorLog, hg, hc]),
          SyncMap.Range_cons_false _ _ _ _ _ (by simp [populateVisitor, hg, hc])]
        simp [populateVisitorLog, populateVisitor, hg]
    | some v =>
      by_cases hc : st.1.2 - 1 > 0
      · rw [SyncMap.Range_cons_true _ _ _ _ _ (by simp [populateVisitorLog, hg, hc]),
          SyncMap.Range_cons_true _ _ _ _ _ (by simp [populateVisitor, hg, hc]), ih]
        simp [populateVisitorLog, populateVisitor, hg]
      · rw [SyncMap.Range_cons_false _ _ _ _ _ (by simp [populateVisitorLog, hg, hc]),
          SyncMap.Range_cons_false _ _ _ _ _ (by simp [populateVisitor, hg, hc])]
        simp [populateVisitorLog, populateVisitor, hg]

theorem populateLog_run (clock : Nat) (store : Store) (l : List (String × Obj))
    (hl : ∀ e ∈ l, store.Get e.1 = some e.2) (ePool : EvictionPool) (sampleSize : Int)
    (hn : 1 ≤ sampleSize) (log : List (String × Nat)) :
    (SyncMap.Range l (populateVisitorLog clock store) ((ePool, sampleSize), log)).2 =
        log ++ (l.take sampleSize.toNat).map (fun e => (e.1, e.2.LastAccessedAt)) ∧
    (SyncMap.Range l (populateVisitorLog clock store) ((ePool, sampleSize), log)).1.1 =
        ((l.take sampleSize.toNat).map (fun e => (e.1, e.2.LastAccessedAt))).foldl
          (fun p e => p.Push clock e.1 e.2) ePool := by
  induction l generalizing ePool sampleSize log with
  | nil => simp [SyncMap.Range]
  | cons e l ih =>
    obtain ⟨k, obj⟩ := e
    have hg : store.Get k = some obj := hl (k, obj) (List.mem_cons_self _ _)
    have hl' : ∀ e ∈ l, store.Get e.1 = some e.2 :=
      fun e he => hl e (List.mem_cons_of_mem _ he)
    have htake : sampleSize.toNat = (sampleSize - 1).toNat + 1 := by omega
    by_cases hc : sampleSize - 1 > 0
    · rw [SyncMap.Range_cons_true _ _ _ _ _ (by simp [populateVisitorLog, hg, hc])]
      simp only [populateVisitorLog, hg]
      have := ih hl' (ePool.Push clock k obj.LastAccessedAt) (sampleSize - 1) (by omega)
        (log ++ [(k, obj.LastAccessedAt)])
      rw [this.1, this.2, htake]
      simp
    · rw [SyncMap.Range_cons_false _ _ _ _ _ (by simp [populateVisitorLog, hg, hc])]
      simp only [populateVisitorLog, hg]
      have h1 : sampleSize.toNat = 1 := by omega
      rw [h1]
      simp

theorem insertByIdle_perm (item : PoolItem) (l : List PoolItem) :
    (insertByIdle item l).Perm (item :: l) := by
  induction l with
  | nil => exact List.Perm.refl _
  | cons head rest ih =>
    unfold insertByIdle
    split
    · exact List.Perm.refl _
    · exact (List.Perm.cons head ih).trans (List.Perm.swap item head rest)

theorem Push_fresh (ePool : EvictionPool) (clock : Nat) (key : String) (lastAccessedAt : Nat)
    (hkey : key ∉ ePool.pool.map PoolItem.keyPtr) (hlen : ePool.pool.length < poolCapacity) :
    (ePool.Push clock key lastAccessedAt).pool =
      insertByIdle ⟨key, getIdleTime clock lastAccessedAt⟩ ePool.pool := by
  unfold EvictionPool.Push
  have hany : ¬ (ePool.pool.any (fun item => decide (item.keyPtr = key)) = true) := by
    intro h
    rw [List.any_eq_true] at h
    obtain ⟨item, hmem, hitem⟩ := h
    apply hkey
    rw [List.mem_map]
    exact ⟨item, hmem, by simpa using hitem⟩
  rw [if_neg hany]
  simp only
  apply List.take_of_length_le
  rw [(insertByIdle_perm _ _).length_eq]
  simp only [List.length_cons]
  omega

theorem foldl_Push_keys (clock : Nat) (pushes : List (String × Nat)) (ePool : EvictionPool)
    (hnd : (pushes.map Prod.fst).Nodup)
    (hfresh : ∀ e ∈ pushes, e.1 ∉ ePool.pool.map PoolItem.keyPtr)
    (hlen : ePool.pool.length + pushes.length ≤ poolCapacity) :
    ((pushes.foldl (fun p e => p.Push clock e.1 e.2) ePool).pool.map PoolItem.keyPtr).Perm
      (pushes.map Prod.fst ++ ePool.pool.map PoolItem.keyPtr) := by
  induction pushes generalizing ePool with
  | nil => simp
  | cons e pushes ih =>
    simp only [List.map_cons, List.nodup_cons] at hnd
    simp only [List.length_cons] at hlen
    have hp := Push_fresh ePool clock e.1 e.2 (hfresh e (List.mem_cons_self _ _)) (by omega)
    have hperm : ((ePool.Push clock e.1 e.2).pool.map PoolItem.keyPtr).Perm
        (e.1 :: ePool.pool.map PoolItem.keyPtr) := by
      rw [hp]
      exact (insertByIdle_perm _ _).map PoolItem.keyPtr
    rw [List.foldl_cons]
    refine (ih (ePool.Push clock e.1 e.2) hnd.2 ?_ ?_).trans ?_
    · intro x hx hmem
      rcases List.mem_cons.mp (hperm.subset hmem) with h | h
      · apply hnd.1
        rw [← h]
        exact List.mem_map_of_mem Prod.fst hx
      · exact hfresh x (List.mem_cons_of_mem _ hx) h
    · have := hperm.length_eq
      simp only [List.length_map, List.length_cons] at this
      omega
    · simp only [List.map_cons, List.cons_append]
      exact (List.Perm.append_left _ hperm).trans List.perm_middle

/-! ## Lemmas on the loops of `evictAllkeysLRU` and `evictAllkeysRandom` -/

theorem evictLRULoopLog_erase (n : Nat) (store : Store) (ePool : EvictionPool)
    (log : List String) :
    (evictLRULoopLog n store ePool log).1 = evictLRULoop n store ePool := by
  induction n generalizing store ePool log with
  | zero => rfl
  | succ n ih =>
    unfold evictLRULoopLog evictLRULoop
    split
    · rcases hp : ePool.pool with _ | ⟨item, rest⟩
      · simp only [EvictionPool.Pop, hp]
      · simp only [EvictionPool.Pop, hp]
        exact ih _ _ _
    · rfl

theorem evictLRULoopLog_run (n : Nat) (store : Store) (ePool : EvictionPool)
    (log : List String) :
    (evictLRULoopLog n store ePool log).2 =
        log ++ (ePool.pool.take n).map PoolItem.keyPtr ∧
    (evictLRULoopLog n store ePool log).1.2 = ⟨ePool.pool.drop n⟩ ∧
    (evictLRULoopLog n store ePool log).1.1 =
        ((ePool.pool.take n).map PoolItem.keyPtr).foldl Store.DelByPtr store := by
  induction n generalizing store ePool log with
  | zero => simp [evictLRULoopLog]
  | succ n ih =>
    unfold evictLRULoopLog
    rcases hp : ePool.pool with _ | ⟨item, rest⟩
    · obtain ⟨pool⟩ := ePool
      simp only at hp
      subst hp
      simp
    · have hlen : (item :: rest).length > 0 := by simp
      rw [if_pos hlen]
      simp only [EvictionPool.Pop, hp]
      obtain ⟨h1, h2, h3⟩ := ih (store.DelByPtr item.keyPtr) ⟨rest⟩ (log ++ [item.keyPtr])
      rw [h1, h2, h3]
      simp

/-- While the target fits an `int16`, the loop of `evictAllkeysLRU` runs
`min(floor(evictionRatio × keysLimit), number of pool entries)` times and
passes the popped keys to `DelByPtr` in pop order. -/
theorem evictAllkeysLRU_iterations_in_range (cfg : Config) (clock : Nat) (store : Store)
    (ePool : EvictionPool) (hcfg : cfg.WF) (hratio : IsFloat64 cfg.EvictionRatio)
    (hrange : ⌊cfg.target⌋ < 2 ^ 15) :
    (evictAllkeysLRULog cfg clock store ePool).1 = evictAllkeysLRU cfg clock store ePool ∧
    (evictAllkeysLRULog cfg clock store ePool).2.length =
      min ⌊cfg.target⌋.toNat (populateEvictionPool clock store ePool).pool.length ∧
    (evictAllkeysLRULog cfg clock store ePool).2 =
      ((populateEvictionPool clock store ePool).pool.take ⌊cfg.target⌋.toNat).map
        PoolItem.keyPtr ∧
    (evictAllkeysLRU cfg clock store ePool).1 =
      (evictAllkeysLRULog cfg clock store ePool).2.foldl Store.DelByPtr store := by
  have hf0 := (floor_target_bounds hcfg hratio).1
  have hw : wrapInt16 ⌊cfg.target⌋ = ⌊cfg.target⌋ := by
    unfold wrapInt16
    omega
  have herase : (evictAllkeysLRULog cfg clock store ePool).1 =
      evictAllkeysLRU cfg clock store ePool := evictLRULoopLog_erase _ _ _ _
  have hrun := evictLRULoopLog_run (wrapInt16 (truncate cfg.target)).toNat store
    (populateEvictionPool clock store ePool) []
  rw [truncate_of_floor_nonneg hf0, hw] at hrun
  simp only [List.nil_append] at hrun
  have hlog : (evictAllkeysLRULog cfg clock store ePool).2 =
      ((populateEvictionPool clock store ePool).pool.take ⌊cfg.target⌋.toNat).map
        PoolItem.keyPtr := by
    unfold evictAllkeysLRULog
    simp only [truncate_of_floor_nonneg hf0, hw]
    exact hrun.1
  refine ⟨herase, ?_, hlog, ?_⟩
  · rw [hlog, List.length_map, List.length_take]
  · rw [← herase, hlog]
    unfold evictAllkeysLRULog
    simp only [truncate_of_floor_nonneg hf0, hw]
    exact hrun.2.2

theorem max_truncate (x : ℚ) : max (truncate x) 1 = max ⌊x⌋ 1 := by
  unfold truncate
  split
  · rfl
  · rename_i h
    have hx : x ≤ ((0 : Int) : ℚ) := by
      push_cast
      exact le_of_lt (not_le.mp h)
    have h1 : ⌈x⌉ ≤ 0 := Int.ceil_le.mpr hx
    have h2 : ⌊x⌋ ≤ ⌈x⌉ := Int.floor_le_ceil x
    omega

theorem evictAllkeysRandom_drop_of_range {cfg : Config}
    (hlo : -2 ^ 63 < truncate cfg.target) (hhi : truncate cfg.target < 2 ^ 63)
    {store : Store} (hs : store.WF) :
    evictAllkeysRandom cfg store = ⟨store.store.drop (max ⌊cfg.target⌋ 1).toNat⟩ := by
  rw [evictAllkeysRandom_eq, wrapInt64_of_range (by omega) hhi,
    randomLoop_drop store.store hs _ hlo hhi, max_truncate]

/-! ## Lemmas on concrete targets and on the keys `evictAllkeysLRU` removes -/

theorem evictAllkeysLRU_eq (cfg : Config) (clock : Nat) (store : Store) (ePool : EvictionPool) :
    evictAllkeysLRU cfg clock store ePool =
      evictLRULoop (wrapInt16 (truncate cfg.target)).toNat store
        (populateEvictionPool clock store ePool) :=
  rfl

theorem evictAllkeysLRULog_eq (cfg : Config) (clock : Nat) (store : Store)
    (ePool : EvictionPool) :
    evictAllkeysLRULog cfg clock store ePool =
      evictLRULoopLog (wrapInt16 (truncate cfg.target)).toNat store
        (populateEvictionPool clock store ePool) [] :=
  rfl

theorem evictLRULoop_removed (n : Nat) (store : Store) (hs : store.WF) (ePool : EvictionPool) :
    (evictLRULoop n store ePool).1.store.length ≤ store.store.length ∧
    store.store.length ≤
      (evictLRULoop n store ePool).1.store.length + min n ePool.pool.length := by
  induction n generalizing store ePool with
  | zero => exact ⟨le_refl _, Nat.le_add_right _ _⟩
  | succ n ih =>
    unfold evictLRULoop
    split
    · rcases hp : ePool.pool with _ | ⟨item, rest⟩
      · simp only [EvictionPool.Pop, hp]
        exact ⟨le_refl _, Nat.le_add_right _ _⟩
      · simp only [EvictionPool.Pop, hp]
        have hwf : (store.DelByPtr item.keyPtr).WF := SyncMap.WF_Delete hs _
        obtain ⟨h2, h3⟩ := ih (store.DelByPtr item.keyPtr) hwf ⟨rest⟩
        have h4 := SyncMap.length_Delete_le store.store item.keyPtr
        have h5 := SyncMap.length_Delete_ge hs item.keyPtr
        simp only [Store.DelByPtr, Store.delByPtr, List.length_cons] at h2 h3 ⊢
        exact ⟨by omega, by omega⟩
    · exact ⟨le_refl _, Nat.le_add_right _ _⟩

theorem target_one_six : (⟨"allkeys-lru", 1, 6⟩ : Config).target = 6 := by
  rw [target_exact _ 3 1 3 1 (by norm_num) (by norm_num) (by norm_num) (by norm_num)
    (by norm_num) (by norm_num)]
  norm_num

theorem target_six_tenths_of_five :
    (⟨"allkeys-random", 5404319552844595 / 9007199254740992, 5⟩ : Config).target = 3 := by
  unfold Config.target
  have h5 : float64Round ((5 : Int) : ℚ) = 5 := by
    have h := float64Round_scaled 5 0 (by norm_num) (by norm_num)
    norm_num at h
    simpa using h
  simp only [h5]
  rw [float64Round_binade _ 1 (by norm_num [abs_of_pos]) (by norm_num [abs_of_pos]) (by norm_num)]
  rw [roundTiesEven_eq_of_lt _ (3 * 2 ^ 51) (by norm_num) (by norm_num)]
  norm_num

theorem SyncMap.length_Delete_of_mem {K V : Type} [DecidableEq K] {m : SyncMap K V}
    (hwf : SyncMap.WF m) {key : K} (hmem : key ∈ SyncMap.keys m) :
    (SyncMap.Delete m key).length + 1 = m.length := by
  induction m with
  | nil => simp [SyncMap.keys] at hmem
  | cons e m ih =>
    obtain ⟨k, v⟩ := e
    by_cases hk : k = key
    · subst hk
      rw [SyncMap.Delete_head hwf]
      simp
    · simp only [SyncMap.Delete, hk, if_false, List.length_cons]
      have hm : key ∈ SyncMap.keys m := by
        simp only [SyncMap.keys, List.map_cons, List.mem_cons] at hmem
        rcases hmem with h | h
        · exact absurd h.symm hk
        · exact h
      have := ih (SyncMap.WF_tail hwf) hm
      omega

theorem foldl_DelByPtr_length (ks : List String) (store : Store) (hs : store.WF)
    (hnd : ks.Nodup) (hmem : ∀ k ∈ ks, k ∈ SyncMap.keys store.store) :
    (ks.foldl Store.DelByPtr store).store.length + ks.length = store.store.length := by
  induction ks generalizing store with
  | nil => rfl
  | cons k ks ih =>
    rw [List.nodup_cons] at hnd
    rw [List.foldl_cons]
    have hwf : (store.DelByPtr k).WF := SyncMap.WF_Delete hs _
    have h1 := ih (store.DelByPtr k) hwf hnd.2 (by
      intro x hx
      simp only [Store.DelByPtr, Store.delByPtr]
      rw [SyncMap.mem_keys_Delete]
      refine ⟨hmem x (List.mem_cons_of_mem _ hx), ?_⟩
      intro hxk
      exact hnd.1 (hxk ▸ hx))
    have h2 := SyncMap.length_Delete_of_mem hs (hmem k (List.mem_cons_self _ _))
    simp only [Store.DelByPtr, Store.delByPtr, List.length_cons] at h1 h2 ⊢
    omega

theorem populateEvictionPool_keys (clock : Nat) (store : Store) (hs : store.WF) :
    ((populateEvictionPool clock store ⟨[]⟩).pool.map PoolItem.keyPtr).Perm
      ((SyncMap.keys store.store).take 5) := by
  have hget : ∀ e ∈ store.store, store.Get e.1 = some e.2 :=
    fun e he => SyncMap.Load_of_mem hs he
  have hrun := populateLog_run clock store store.store hget ⟨[]⟩ 5 (by decide) []
  have herase := populateLog_erase clock store store.store ((⟨[]⟩, 5), [])
  have h5 : (5 : Int).toNat = 5 := rfl
  rw [h5] at hrun
  have heq : populateEvictionPool clock store ⟨[]⟩ =
      (SyncMap.Range store.store (populateVisitorLog clock store) ((⟨[]⟩, 5), [])).1.1 := by
    rw [populateEvictionPool_eq]
    exact (congrArg Prod.fst herase).symm
  rw [heq, hrun.2]
  have hkeys : ((store.store.take 5).map (fun e => (e.1, e.2.LastAccessedAt))).map Prod.fst =
      (SyncMap.keys store.store).take 5 := by
    simp only [SyncMap.keys, List.map_take, List.map_map]
    rfl
  have hperm := foldl_Push_keys clock
    ((store.store.take 5).map (fun e => (e.1, e.2.LastAccessedAt))) ⟨[]⟩
    (by rw [hkeys]; exact List.Nodup.sublist (List.take_sublist _ _) hs)
    (by intro e _; simp)
    (by simp [poolCapacity])
  rw [hkeys] at hperm
  simpa using hperm

theorem evictAllkeysLRU_removed_exact (cfg : Config) (clock : Nat) (store : Store)
    (hcfg : cfg.WF) (hratio : IsFloat64 cfg.EvictionRatio) (hs : store.WF)
    (hrange : ⌊cfg.target⌋ < 2 ^ 15) :
    (evictAllkeysLRU cfg clock store ⟨[]⟩).1.store.length +
      min ⌊cfg.target⌋.toNat (min 5 store.store.length) = store.store.length := by
  obtain ⟨-, -, hlog, hdel⟩ :=
    evictAllkeysLRU_iterations_in_range cfg clock store ⟨[]⟩ hcfg hratio hrange
  have hperm := populateEvictionPool_keys clock store hs
  have hnd : ((populateEvictionPool clock store ⟨[]⟩).pool.map PoolItem.keyPtr).Nodup :=
    hperm.nodup_iff.mpr (List.Nodup.sublist (List.take_sublist _ _) hs)
  have hlen : (populateEvictionPool clock store ⟨[]⟩).pool.length = min 5 store.store.length := by
    have := hperm.length_eq
    simpa [SyncMap.keys] using this
  rw [hdel, hlog]
  have h := foldl_DelByPtr_length
    (((populateEvictionPool clock store ⟨[]⟩).pool.take ⌊cfg.target⌋.toNat).map PoolItem.keyPtr)
    store hs
    (by
      rw [List.map_take]
      exact List.Nodup.sublist (List.take_sublist _ _) hnd)
    (by
      intro k hk
      rw [List.map_take] at hk
      exact List.mem_of_mem_take (hperm.subset (List.mem_of_mem_take hk)))
  rw [List.length_map, List.length_take, hlen] at h
  exact h

/-! ## Theorems -/

/-- C1: for `now` and `lastAccessedAt` in `[0, 0xFFFFFF]`, `getIdleTime` is
`now - lastAccessedAt` when `now >= lastAccessedAt` and
`(0xFFFFFF - lastAccessedAt) + now` otherwise. -/
theorem getIdleTime_spec (now lastAccessedAt : Nat)
    (hnow : now ≤ 0xFFFFFF) (hlast : lastAccessedAt ≤ 0xFFFFFF) :
    (now ≥ lastAccessedAt → getIdleTime now lastAccessedAt = now - lastAccessedAt) ∧
    (¬ now ≥ lastAccessedAt →
      getIdleTime now lastAccessedAt = (0xFFFFFF - lastAccessedAt) + now) := by
  unfold getIdleTime uint32Add uint32Sub
  constructor
  · intro h
    rw [if_pos h]
    omega
  · intro h
    rw [if_neg h]
    omega

theorem getIdleTime_spec_witness :
    getIdleTime 100 16777000 = (0xFFFFFF - 16777000) + 100 :=
  (getIdleTime_spec 100 16777000 (by decide) (by decide)).2 (by decide)

/-- C2: in every registry state reached from the empty `WatchList` by a finite
sequence of `AddWatcher` / `RemoveWatcher` calls, a query is a key of the
`WatchList` if and only if its client set is non-empty, and no query is mapped
to an empty client set. -/
theorem registry_invariant (events : List WatchSubscription) (query : DSQLQuery) :
    (query ∈ SyncMap.keys (runSubscriptions events) ↔
      clientsOf (runSubscriptions events) query ≠ []) ∧
    (∀ clients : Clients,
      SyncMap.Load (runSubscriptions events) query = some clients → clients ≠ []) :=
  ⟨RegistryInv_registered_iff (RegistryInv_runSubscriptions events) query,
    fun _ h => (RegistryInv_runSubscriptions events).2 _ (SyncMap.Load_mem h)⟩

/-- C3: calling `AddWatcher(Q, c)` twice yields the same registry state as
calling it once, and in that state the client set of `Q` contains `c` exactly
once. -/
theorem AddWatcher_idempotent (w : WatchList) (hw : RegistryWF w)
    (query : DSQLQuery) (clientFd : Int) :
    AddWatcher (AddWatcher w query clientFd) query clientFd = AddWatcher w query clientFd ∧
    (clientsOf (AddWatcher w query clientFd) query).count clientFd = 1 := by
  constructor
  · rw [AddWatcher_eq (AddWatcher w query clientFd), AddWatcher_eq w]
    rw [SyncMap.Load_Store_self, SyncMap.Store_Store]
    simp only [Option.getD_some]
    rw [SyncMap.Store_of_Load (SyncMap.Load_Store_self _ clientFd ())]
  · rw [AddWatcher_eq]
    simp only [clientsOf, SyncMap.Load_Store_self]
    apply List.count_eq_one_of_mem
    · exact SyncMap.WF_Store (RegistryWF_Load hw query) _ _
    · rw [← SyncMap.Load_isSome_iff, SyncMap.Load_Store_self]
      rfl

theorem AddWatcher_idempotent_witness :
    AddWatcher (AddWatcher [(⟨"user:*", "q"⟩, [(1, ())])] ⟨"user:*", "q"⟩ 1) ⟨"user:*", "q"⟩ 1 =
      AddWatcher [(⟨"user:*", "q"⟩, [(1, ())])] ⟨"user:*", "q"⟩ 1 ∧
    (clientsOf (AddWatcher [(⟨"user:*", "q"⟩, [(1, ())])] ⟨"user:*", "q"⟩ 1)
      ⟨"user:*", "q"⟩).count 1 = 1 :=
  AddWatcher_idempotent [(⟨"user:*", "q"⟩, [(1, ())])]
    ⟨by decide, by decide⟩ ⟨"user:*", "q"⟩ 1

/-- C4: in every registry state reachable from empty by `AddWatcher` /
`RemoveWatcher` calls, `RemoveWatcher(Q, c)` for a query that is not registered
or a client that is not in the client set of `Q` leaves the whole registry
unchanged; and `RemoveWatcher(Q, c)` applied twice equals `RemoveWatcher(Q, c)`
applied once. -/
theorem RemoveWatcher_absent_noop (events : List WatchSubscription)
    (query : DSQLQuery) (clientFd : Int) :
    ((SyncMap.Load (runSubscriptions events) query = none ∨
        clientFd ∉ clientsOf (runSubscriptions events) query) →
      RemoveWatcher (runSubscriptions events) query clientFd = runSubscriptions events) ∧
    RemoveWatcher (RemoveWatcher (runSubscriptions events) query clientFd) query clientFd =
      RemoveWatcher (runSubscriptions events) query clientFd :=
  ⟨RemoveWatcher_absent (RegistryInv_runSubscriptions events) query clientFd,
    RemoveWatcher_absent
      (RegistryInv_RemoveWatcher (RegistryInv_runSubscriptions events) query clientFd)
      query clientFd (RemoveWatcher_result_absent _ query clientFd)⟩

theorem RemoveWatcher_absent_noop_witness :
    RemoveWatcher (runSubscriptions [⟨true, ⟨"user:*", "q"⟩, 1⟩]) ⟨"user:*", "q"⟩ 2 =
      runSubscriptions [⟨true, ⟨"user:*", "q"⟩, 1⟩] :=
  (RemoveWatcher_absent_noop [⟨true, ⟨"user:*", "q"⟩, 1⟩] ⟨"user:*", "q"⟩ 2).1
    (Or.inr (by decide))

/-- C5: on a registry with no entry for `Q`, calling `AddWatcher(Q, c)` for each
handle of a finite list and then `RemoveWatcher(Q, c)` for each handle, in any
order, yields a registry with no entry for `Q`, equal to the original one. -/
theorem subscribe_unsubscribe_roundtrip (w : WatchList) (query : DSQLQuery)
    (adds removes : List Int) (hq : SyncMap.Load w query = none)
    (horder : List.Perm removes adds) :
    SyncMap.Load
        (removes.foldl (fun r c => RemoveWatcher r query c)
          (adds.foldl (fun r c => AddWatcher r query c) w)) query = none ∧
    removes.foldl (fun r c => RemoveWatcher r query c)
        (adds.foldl (fun r c => AddWatcher r query c) w) = w := by
  have hw : w = withEntry w query [] := by simp [withEntry]
  have hfinal : removes.foldl (fun r c => RemoveWatcher r query c)
      (adds.foldl (fun r c => AddWatcher r query c) w) = w := by
    conv_lhs => rw [hw]
    rw [foldl_AddWatcher_withEntry hq, foldl_RemoveWatcher_withEntry hq]
    have hnil : removes.foldl (fun cs c => SyncMap.Delete cs c)
        (adds.foldl (fun cs c => SyncMap.Store cs c ()) []) = [] := by
      apply List.eq_nil_iff_forall_not_mem.mpr
      rintro ⟨c, u⟩ hmem
      have hk : c ∈ SyncMap.keys (removes.foldl (fun cs c => SyncMap.Delete cs c)
          (adds.foldl (fun cs c => SyncMap.Store cs c ()) [])) :=
        List.mem_map_of_mem Prod.fst hmem
      have h1 := keys_foldl_Delete removes _ c hk
      rcases keys_foldl_Store adds [] c h1.1 with h2 | h2
      · simp [SyncMap.keys] at h2
      · exact h1.2 (horder.mem_iff.mpr h2)
    rw [hnil]
    simp [withEntry]
  exact ⟨by rw [hfinal]; exact hq, hfinal⟩

theorem subscribe_unsubscribe_roundtrip_witness :
    SyncMap.Load
        ([1, 2].foldl (fun r c => RemoveWatcher r ⟨"user:*", "q"⟩ c)
          ([1, 2].foldl (fun r c => AddWatcher r ⟨"user:*", "q"⟩ c) [])) ⟨"user:*", "q"⟩ = none ∧
    [1, 2].foldl (fun r c => RemoveWatcher r ⟨"user:*", "q"⟩ c)
        ([1, 2].foldl (fun r c => AddWatcher r ⟨"user:*", "q"⟩ c) []) = [] :=
  subscribe_unsubscribe_roundtrip [] ⟨"user:*", "q"⟩ [1, 2] [1, 2] rfl (List.Perm.refl _)

/-- C9: `evictFirst` on a non-empty store removes exactly one key, the first
one yielded by the iteration, and every other key is still present with its
object unchanged; on the empty store it leaves the store unchanged. -/
theorem evictFirst_spec (store : Store) (hs : store.WF) :
    (store.store = [] → evictFirst store = store) ∧
    (∀ (k : String) (obj : Obj) (rest : List (String × Obj)),
      store.store = (k, obj) :: rest →
        (evictFirst store).store = rest ∧
        (evictFirst store).store.length + 1 = store.store.length ∧
        (evictFirst store).Get k = none ∧
        ∀ key : String, key ≠ k → (evictFirst store).Get key = store.Get key) := by
  obtain ⟨l⟩ := store
  constructor
  · intro h
    simp only at h
    subst h
    rfl
  · intro k obj rest h
    simp only at h
    subst h
    rw [evictFirst_cons hs]
    refine ⟨rfl, rfl, ?_, ?_⟩
    · have := SyncMap.Load_Delete_self ((k, obj) :: rest) k
      rw [SyncMap.Delete_head hs] at this
      exact this
    · intro key hkey
      have hk : ¬ k = key := fun h => hkey h.symm
      simp [Store.Get, SyncMap.Load, hk]

theorem evictFirst_spec_witness :
    (evictFirst ⟨[("a", ⟨"1", 7⟩), ("b", ⟨"2", 9⟩)]⟩).store = [("b", ⟨"2", 9⟩)] :=
  ((evictFirst_spec ⟨[("a", ⟨"1", 7⟩), ("b", ⟨"2", 9⟩)]⟩ (by decide)).2
    "a" ⟨"1", 7⟩ [("b", ⟨"2", 9⟩)] rfl).1

/-- C10: for a store with `n` keys and a configuration whose target
`evictCount = floor(evictionRatio × keysLimit)`, the product being the
`float64` product the code computes, is at least 1 (and fits the `int64` it is
converted to),
`evictAllkeysRandom` removes exactly `min(evictCount, n)` keys, they are the
first `min(evictCount, n)` keys of the iteration order, and every other key
remains present with its object unchanged. -/
theorem evictAllkeysRandom_spec (cfg : Config) (store : Store) (hs : store.WF)
    (htarget : 1 ≤ ⌊cfg.target⌋) (hrange : ⌊cfg.target⌋ < 2 ^ 63) :
    (evictAllkeysRandom cfg store).store =
      store.store.drop (min ⌊cfg.target⌋.toNat store.store.length) ∧
    (evictAllkeysRandom cfg store).store.length + min ⌊cfg.target⌋.toNat store.store.length =
      store.store.length ∧
    (∀ key ∈ (SyncMap.keys store.store).take (min ⌊cfg.target⌋.toNat store.store.length),
      (evictAllkeysRandom cfg store).Get key = none) ∧
    (∀ key, key ∉ (SyncMap.keys store.store).take (min ⌊cfg.target⌋.toNat store.store.length) →
      (evictAllkeysRandom cfg store).Get key = store.Get key) := by
  have hmax : (max ⌊cfg.target⌋ 1).toNat = ⌊cfg.target⌋.toNat := by omega
  have hdrop : (evictAllkeysRandom cfg store).store =
      store.store.drop (min ⌊cfg.target⌋.toNat store.store.length) := by
    rw [evictAllkeysRandom_drop (by omega) hrange hs, hmax]
    rcases Nat.le_total ⌊cfg.target⌋.toNat store.store.length with h | h
    · rw [Nat.min_eq_left h]
    · rw [Nat.min_eq_right h, List.drop_eq_nil_of_le h, List.drop_eq_nil_of_le (le_refl _)]
  refine ⟨hdrop, ?_, ?_, ?_⟩
  · rw [hdrop, List.length_drop]
    omega
  · intro key hkey
    unfold Store.Get
    rw [hdrop]
    exact SyncMap.Load_drop_of_mem hs _ hkey
  · intro key hkey
    unfold Store.Get
    rw [hdrop]
    exact SyncMap.Load_drop_of_not_mem _ _ hkey

theorem evictAllkeysRandom_spec_witness :
    (evictAllkeysRandom ⟨"allkeys-random", 5404319552844595 / 9007199254740992, 5⟩
        ⟨[("a", ⟨"1", 7⟩), ("b", ⟨"2", 9⟩), ("c", ⟨"3", 8⟩), ("d", ⟨"4", 6⟩)]⟩).store =
      [("d", ⟨"4", 6⟩)] := by
  have hf : ⌊(⟨"allkeys-random", 5404319552844595 / 9007199254740992, 5⟩ : Config).target⌋ = 3 := by
    rw [target_six_tenths_of_five]
    norm_num
  have h := (evictAllkeysRandom_spec ⟨"allkeys-random", 5404319552844595 / 9007199254740992, 5⟩
    ⟨[("a", ⟨"1", 7⟩), ("b", ⟨"2", 9⟩), ("c", ⟨"3", 8⟩), ("d", ⟨"4", 6⟩)]⟩
    (by decide) (by rw [hf]; norm_num) (by rw [hf]; norm_num)).1
  rw [hf] at h
  exact h

/-- C6, as stated, fails: with ratio 1/2 and limit 3 the ceiling of the target
is 2 and `evictAllkeysRandom` removes one key of a store that holds two; with
ratio 1 and limit 6 `evictAllkeysLRU` removes five keys of a store that holds
six.  Each removes strictly fewer keys than the ceiling although the store does
not hold fewer keys than that. -/
theorem eviction_count_counterexample :
    (Config.WF ⟨"allkeys-random", 1 / 2, 3⟩ ∧
      Store.WF ⟨[("a", ⟨"1", 0⟩), ("b", ⟨"2", 0⟩)]⟩ ∧
      (evictAllkeysRandom ⟨"allkeys-random", 1 / 2, 3⟩
        ⟨[("a", ⟨"1", 0⟩), ("b", ⟨"2", 0⟩)]⟩).store = [("b", ⟨"2", 0⟩)] ∧
      ¬ ((((Store.mk [("a", ⟨"1", 0⟩), ("b", ⟨"2", 0⟩)]).store.length -
            (evictAllkeysRandom ⟨"allkeys-random", 1 / 2, 3⟩
              ⟨[("a", ⟨"1", 0⟩), ("b", ⟨"2", 0⟩)]⟩).store.length : Nat) : Int) <
            ⌈(⟨"allkeys-random", 1 / 2, 3⟩ : Config).target⌉ →
          (((Store.mk [("a", ⟨"1", 0⟩), ("b", ⟨"2", 0⟩)]).store.length : Nat) : Int) <
            ⌈(⟨"allkeys-random", 1 / 2, 3⟩ : Config).target⌉)) ∧
    (Config.WF ⟨"allkeys-lru", 1, 6⟩ ∧
      Store.WF ⟨[("a", ⟨"1", 0⟩), ("b", ⟨"2", 0⟩), ("c", ⟨"3", 0⟩), ("d", ⟨"4", 0⟩),
          ("e", ⟨"5", 0⟩), ("f", ⟨"6", 0⟩)]⟩ ∧
      (evictAllkeysLRU ⟨"allkeys-lru", 1, 6⟩ 0
        ⟨[("a", ⟨"1", 0⟩), ("b", ⟨"2", 0⟩), ("c", ⟨"3", 0⟩), ("d", ⟨"4", 0⟩),
          ("e", ⟨"5", 0⟩), ("f", ⟨"6", 0⟩)]⟩ ⟨[]⟩).1.store = [("f", ⟨"6", 0⟩)] ∧
      ¬ ((((Store.mk [("a", ⟨"1", 0⟩), ("b", ⟨"2", 0⟩), ("c", ⟨"3", 0⟩), ("d", ⟨"4", 0⟩),
              ("e", ⟨"5", 0⟩), ("f", ⟨"6", 0⟩)]).store.length -
            (evictAllkeysLRU ⟨"allkeys-lru", 1, 6⟩ 0
              ⟨[("a", ⟨"1", 0⟩), ("b", ⟨"2", 0⟩), ("c", ⟨"3", 0⟩), ("d", ⟨"4", 0⟩),
                ("e", ⟨"5", 0⟩), ("f", ⟨"6", 0⟩)]⟩ ⟨[]⟩).1.store.length : Nat) : Int) <
            ⌈(⟨"allkeys-lru", 1, 6⟩ : Config).target⌉ →
          (((Store.mk [("a", ⟨"1", 0⟩), ("b", ⟨"2", 0⟩), ("c", ⟨"3", 0⟩), ("d", ⟨"4", 0⟩),
              ("e", ⟨"5", 0⟩), ("f", ⟨"6", 0⟩)]).store.length : Nat) : Int) <
            ⌈(⟨"allkeys-lru", 1, 6⟩ : Config).target⌉)) := by
  have q1 : (⟨"allkeys-random", 1 / 2, 3⟩ : Config).target = 3 / 2 := by
    rw [target_exact _ 3 0 3 (-1) (by norm_num) (by norm_num) (by norm_num) (by norm_num)
      (by norm_num) (by norm_num)]
    norm_num
  have t1 : truncate (⟨"allkeys-random", 1 / 2, 3⟩ : Config).target = 1 := by
    rw [q1]
    norm_num [truncate, Int.floor_eq_iff]
  have t2 : truncate (⟨"allkeys-lru", 1, 6⟩ : Config).target = 6 := by
    rw [target_one_six]
    norm_num [truncate]
  have c1 : ⌈(⟨"allkeys-random", 1 / 2, 3⟩ : Config).target⌉ = 2 := by
    rw [q1]
    norm_num [Int.ceil_eq_iff]
  have c2 : ⌈(⟨"allkeys-lru", 1, 6⟩ : Config).target⌉ = 6 := by
    rw [target_one_six]
    norm_num
  have r1 : (evictAllkeysRandom ⟨"allkeys-random", 1 / 2, 3⟩
      ⟨[("a", ⟨"1", 0⟩), ("b", ⟨"2", 0⟩)]⟩).store = [("b", ⟨"2", 0⟩)] := by
    rw [evictAllkeysRandom_eq, t1]
    decide
  have r2 : (evictAllkeysLRU ⟨"allkeys-lru", 1, 6⟩ 0
      ⟨[("a", ⟨"1", 0⟩), ("b", ⟨"2", 0⟩), ("c", ⟨"3", 0⟩), ("d", ⟨"4", 0⟩),
        ("e", ⟨"5", 0⟩), ("f", ⟨"6", 0⟩)]⟩ ⟨[]⟩).1.store = [("f", ⟨"6", 0⟩)] := by
    rw [evictAllkeysLRU_eq, t2]
    decide
  refine ⟨⟨?_, by decide, r1, ?_⟩, ?_, by decide, r2, ?_⟩
  · simp only [Config.WF]; norm_num
  · rw [r1, c1]
    decide
  · simp only [Config.WF]; norm_num
  · rw [r2, c2]
    decide

/-- C6, amended: for a configuration whose ratio is a `float64` in (0,1] and
whose limit is positive, let `target` be the `float64` product
`evictionRatio × keysLimit` the code computes.  One invocation of
`evictAllkeysRandom`, when `floor(target)` fits the `int64` it is converted to,
only removes keys, removes exactly `min(max(floor(target), 1), n)` keys of a
store with `n` keys, and so at most `ceil(target)` keys.  One invocation of
`evictAllkeysLRU` only removes keys, removes at most
`min(floor(target), number of entries of the populated pool)` keys, whatever
the size of the store, and so at most `ceil(target)` keys; when the pool is
empty before the call and `floor(target)` is below `2^15`, it removes exactly
`min(floor(target), 5, n)` keys. -/
theorem eviction_count_bound (cfg : Config) (store : Store) (clock : Nat)
    (ePool : EvictionPool) (hcfg : cfg.WF) (hratio : IsFloat64 cfg.EvictionRatio)
    (hs : store.WF) :
    (⌊cfg.target⌋ < 2 ^ 63 →
      (evictAllkeysRandom cfg store).store.length ≤ store.store.length ∧
      store.store.length - (evictAllkeysRandom cfg store).store.length =
        min (max ⌊cfg.target⌋ 1).toNat store.store.length ∧
      ((store.store.length - (evictAllkeysRandom cfg store).store.length : Nat) : Int) ≤
        ⌈cfg.target⌉) ∧
    ((evictAllkeysLRU cfg clock store ePool).1.store.length ≤ store.store.length ∧
      store.store.length - (evictAllkeysLRU cfg clock store ePool).1.store.length ≤
        min ⌊cfg.target⌋.toNat (populateEvictionPool clock store ePool).pool.length ∧
      ((store.store.length - (evictAllkeysLRU cfg clock store ePool).1.store.length : Nat) : Int) ≤
        ⌈cfg.target⌉ ∧
      (ePool.pool = [] → ⌊cfg.target⌋ < 2 ^ 15 →
        store.store.length - (evictAllkeysLRU cfg clock store ePool).1.store.length =
          min ⌊cfg.target⌋.toNat (min 5 store.store.length))) := by
  obtain ⟨hf0, hc0, hfc⟩ := floor_target_bounds hcfg hratio
  constructor
  · intro hf1
    rw [evictAllkeysRandom_drop hf0 hf1 hs]
    simp only [List.length_drop]
    refine ⟨by omega, by omega, ?_⟩
    omega
  · have hexact : ePool.pool = [] → ⌊cfg.target⌋ < 2 ^ 15 →
        store.store.length - (evictAllkeysLRU cfg clock store ePool).1.store.length =
          min ⌊cfg.target⌋.toNat (min 5 store.store.length) := by
      intro hempty hrange
      obtain ⟨pool⟩ := ePool
      simp only at hempty
      subst hempty
      have h := evictAllkeysLRU_removed_exact cfg clock store hcfg hratio hs hrange
      omega
    unfold evictAllkeysLRU at hexact ⊢
    simp only [truncate_of_floor_nonneg hf0] at hexact ⊢
    obtain ⟨h2, h3⟩ := evictLRULoop_removed (wrapInt16 ⌊cfg.target⌋).toNat store hs
      (populateEvictionPool clock store ePool)
    have h4 := wrapInt16_le hf0
    refine ⟨h2, ?_, ?_, hexact⟩ <;> omega

theorem eviction_count_bound_witness :
    (6 - (evictAllkeysRandom ⟨"allkeys-lru", 1, 6⟩
        ⟨[("a", ⟨"1", 0⟩), ("b", ⟨"2", 0⟩), ("c", ⟨"3", 0⟩), ("d", ⟨"4", 0⟩),
          ("e", ⟨"5", 0⟩), ("f", ⟨"6", 0⟩)]⟩).store.length = 6) ∧
    (6 - (evictAllkeysLRU ⟨"allkeys-lru", 1, 6⟩ 0
        ⟨[("a", ⟨"1", 0⟩), ("b", ⟨"2", 0⟩), ("c", ⟨"3", 0⟩), ("d", ⟨"4", 0⟩),
          ("e", ⟨"5", 0⟩), ("f", ⟨"6", 0⟩)]⟩ ⟨[]⟩).1.store.length = 5) := by
  have hf : ⌊(⟨"allkeys-lru", 1, 6⟩ : Config).target⌋ = 6 := by
    rw [target_one_six]
    norm_num
  have h := eviction_count_bound ⟨"allkeys-lru", 1, 6⟩
    ⟨[("a", ⟨"1", 0⟩), ("b", ⟨"2", 0⟩), ("c", ⟨"3", 0⟩), ("d", ⟨"4", 0⟩),
      ("e", ⟨"5", 0⟩), ("f", ⟨"6", 0⟩)]⟩ 0 ⟨[]⟩
    (by simp only [Config.WF]; norm_num)
    (by
      have h1 := float64Round_scaled 1 0 (by norm_num) (by norm_num)
      unfold IsFloat64
      norm_num at h1 ⊢
      exact h1)
    (by decide)
  have h1 := (h.1 (by rw [hf]; norm_num)).2.1
  have h2 := h.2.2.2.2 rfl (by rw [hf]; norm_num)
  rw [hf] at h1 h2
  exact ⟨h1, h2⟩

/-- C7, as stated, fails: a query registered with an empty client set has no
failed write to trigger `RemoveWatcher`, so every write for it failed
(vacuously) and it still has an entry after the step. -/
theorem dispatch_self_healing_counterexample :
    RegistryWF [(⟨"user:*", "q"⟩, [])] ∧
    SyncMap.Load ([(⟨"user:*", "q"⟩, [])] : WatchList) ⟨"user:*", "q"⟩ = some [] ∧
    (∀ c ∈ clientsOf ([(⟨"user:*", "q"⟩, [])] : WatchList) ⟨"user:*", "q"⟩,
      (fun (_ : DSQLQuery) (_ : Int) (_ : Unit) => false) ⟨"user:*", "q"⟩ c () = false) ∧
    SyncMap.Load
        (watchKeysEvent
          (⟨fun _ _ => true, fun _ => .ok (), fun _ _ _ => false⟩ : Oracles Unit)
          [(⟨"user:*", "q"⟩, [])] ⟨"user:42", "SET"⟩).WatchList
        ⟨"user:*", "q"⟩ ≠ none := by
  refine ⟨⟨by decide, by decide⟩, by decide, ?_, by decide⟩
  intro c _
  rfl

/-- C7, amended: in one dispatch step, for a registered query `Q` whose
`KeyRegex` matches the event key and whose execution succeeds, a client that
was subscribed to `Q` is still in the client set of `Q` after the step if and
only if the write to it succeeded; if `Q` had at least one client and every
write for `Q` failed, `Q` has no entry in the registry. -/
theorem dispatch_self_healing {R : Type} (o : Oracles R) (w : WatchList)
    (hw : RegistryWF w) (event : WatchEvent) (query : DSQLQuery) (clients : Clients)
    (queryResult : R) (hreg : SyncMap.Load w query = some clients)
    (hmatch : o.WildCardMatch query.KeyRegex event.Key = true)
    (hexec : o.ExecuteQuery query = .ok queryResult) :
    (∀ c ∈ SyncMap.keys clients,
      c ∈ clientsOf (watchKeysEvent o w event).WatchList query ↔
        o.Write query c queryResult = true) ∧
    (clients ≠ [] →
      (∀ c ∈ SyncMap.keys clients, o.Write query c queryResult = false) →
      SyncMap.Load (watchKeysEvent o w event).WatchList query = none) := by
  rw [watchKeysEvent_eq]
  obtain ⟨st₀, h1, h2⟩ := foldl_visit_Load o event w hw.1 ⟨w, []⟩ hreg
  have hvisit : visit o event st₀ (query, clients) =
      notifyAll o query queryResult clients st₀ :=
    visit_of_delivers o event st₀ (query, clients) hmatch hexec
  rw [hvisit] at h2
  have hst₀ : clientsOf st₀.WatchList query = SyncMap.keys clients := by
    unfold clientsOf
    rw [h1, hreg]
  have hmem : ∀ c, c ∈ clientsOf (w.foldl (visit o event) ⟨w, []⟩).WatchList query ↔
      c ∈ SyncMap.keys clients ∧ o.Write query c queryResult = true := by
    intro c
    rw [clientsOf_congr h2, notifyAll_mem, hst₀]
    constructor
    · rintro ⟨h3, h4⟩
      refine ⟨h3, ?_⟩
      cases hwr : o.Write query c queryResult with
      | true => rfl
      | false => exact absurd ⟨h3, hwr⟩ h4
    · rintro ⟨h3, h4⟩
      refine ⟨h3, ?_⟩
      rintro ⟨-, h5⟩
      rw [h4] at h5
      cases h5
  constructor
  · intro c hc
    rw [hmem]
    exact ⟨fun h => h.2, fun h => ⟨hc, h⟩⟩
  · intro hne hfail
    obtain ⟨e, rest⟩ := List.exists_cons_of_ne_nil hne
    obtain ⟨rest, he⟩ := rest
    have hex : ∃ c ∈ SyncMap.keys clients, o.Write query c queryResult = false := by
      refine ⟨e.1, ?_, hfail e.1 ?_⟩ <;> simp [SyncMap.keys, he]
    have hno := notifyAll_NoEmptyEntry o query queryResult clients st₀ hex
    unfold NoEmptyEntry at hno
    rw [← h2, ← clientsOf_congr h2] at hno
    rcases hno with hno | hno
    · exact hno
    · exfalso
      apply hno
      apply List.eq_nil_iff_forall_not_mem.mpr
      intro c hc
      have := (hmem c).mp hc
      rw [hfail c this.1] at this
      cases this.2

theorem dispatch_self_healing_witness :
    ((2 : Int) ∈ clientsOf
        (watchKeysEvent
          (⟨fun _ _ => true, fun _ => .ok (), fun _ c _ => decide (c = 1)⟩ : Oracles Unit)
          [(⟨"user:*", "q"⟩, [(1, ()), (2, ())])] ⟨"user:42", "SET"⟩).WatchList
        ⟨"user:*", "q"⟩ ↔
      (fun (_ : DSQLQuery) (c : Int) (_ : Unit) => decide (c = 1)) ⟨"user:*", "q"⟩ 2 () = true) :=
  (dispatch_self_healing
    (⟨fun _ _ => true, fun _ => .ok (), fun _ c _ => decide (c = 1)⟩ : Oracles Unit)
    [(⟨"user:*", "q"⟩, [(1, ()), (2, ())])] ⟨by decide, by decide⟩ ⟨"user:42", "SET"⟩
    ⟨"user:*", "q"⟩ [(1, ()), (2, ())] () rfl rfl rfl).1 2 (by decide)

/-- C8: in one dispatch step, a write to client `c` on behalf of query `Q` is
attempted exactly once if `Q` is registered, `Q.KeyRegex` matches the event
key, executing `Q` succeeds and `c` is in the client set of `Q`, and zero times
otherwise; for a query that does not match or whose execution returns an error
no write is attempted and its client set is unchanged. -/
theorem dispatch_delivery_targets {R : Type} (o : Oracles R) (w : WatchList)
    (hw : RegistryWF w) (event : WatchEvent) (query : DSQLQuery) (c : Int) :
    ((query ∈ SyncMap.keys w ∧ o.WildCardMatch query.KeyRegex event.Key = true ∧
        (∃ queryResult, o.ExecuteQuery query = .ok queryResult) ∧ c ∈ clientsOf w query) →
      attempts (watchKeysEvent o w event) query c = 1) ∧
    (¬ (query ∈ SyncMap.keys w ∧ o.WildCardMatch query.KeyRegex event.Key = true ∧
        (∃ queryResult, o.ExecuteQuery query = .ok queryResult) ∧ c ∈ clientsOf w query) →
      attempts (watchKeysEvent o w event) query c = 0) ∧
    (¬ (o.WildCardMatch query.KeyRegex event.Key = true ∧
        ∃ queryResult, o.ExecuteQuery query = .ok queryResult) →
      (∀ c', (query, c') ∉ (watchKeysEvent o w event).writes) ∧
      SyncMap.Load (watchKeysEvent o w event).WatchList query = SyncMap.Load w query) := by
  rw [watchKeysEvent_eq]
  have hcount : ∀ c', attempts (w.foldl (visit o event) ⟨w, []⟩) query c' =
      if delivers o event query = true ∧ c' ∈ clientsOf w query then 1 else 0 := by
    intro c'
    rw [foldl_visit_count o event w hw]
    simp [attempts]
  refine ⟨?_, ?_, ?_⟩
  · rintro ⟨-, hm, hx, hc⟩
    rw [hcount, if_pos ⟨(delivers_iff o event query).mpr ⟨hm, hx⟩, hc⟩]
  · intro hnot
    rw [hcount, if_neg]
    rintro ⟨hd, hc⟩
    obtain ⟨hm, hx⟩ := (delivers_iff o event query).mp hd
    exact hnot ⟨mem_clientsOf_registered hc, hm, hx, hc⟩
  · intro hnot
    have hd : delivers o event query = false := by
      cases h : delivers o event query with
      | false => rfl
      | true => exact absurd ((delivers_iff o event query).mp h) hnot
    constructor
    · intro c' hmem
      have := hcount c'
      rw [if_neg (by rw [hd]; simp)] at this
      unfold attempts at this
      rw [List.countP_eq_zero] at this
      simpa using this (query, c') hmem
    · exact foldl_visit_Load_inactive o event w _ hd

theorem dispatch_delivery_targets_witness :
    attempts
      (watchKeysEvent
        (⟨fun _ _ => true, fun _ => .ok (), fun _ c _ => decide (c = 1)⟩ : Oracles Unit)
        [(⟨"user:*", "q"⟩, [(1, ()), (2, ())])] ⟨"user:42", "SET"⟩)
      ⟨"user:*", "q"⟩ 2 = 1 :=
  (dispatch_delivery_targets
    (⟨fun _ _ => true, fun _ => .ok (), fun _ c _ => decide (c = 1)⟩ : Oracles Unit)
    [(⟨"user:*", "q"⟩, [(1, ()), (2, ())])] ⟨by decide, by decide⟩ ⟨"user:42", "SET"⟩
    ⟨"user:*", "q"⟩ 2).1 ⟨by decide, rfl, ⟨(), rfl⟩, by decide⟩

/-- C12, as stated, fails: `Store.evict` does not look at the key count. With
the strategy `simple-first` and a limit of 10 keys it removes the only key of a
store that holds one. -/
theorem evict_under_limit_counterexample :
    (((Store.mk [("a", ⟨"1", 0⟩)]).store.length : Nat) : Int) ≤
        (⟨"simple-first", 1 / 10, 10⟩ : Config).KeysLimit ∧
    (Store.evict ⟨"simple-first", 1 / 10, 10⟩ 0 ⟨[("a", ⟨"1", 0⟩)]⟩ ⟨[]⟩).1.store = [] := by
  refine ⟨by decide, ?_⟩
  rw [evict_simple_first _ _ _ _ rfl]
  decide

/-- C12, amended: `Store.evict` never compares the key count with the limit. It
removes no key when the store is empty or when the strategy name is none of
the three; under `simple-first` it removes one key of every non-empty store,
at or under the limit as well as over it. -/
theorem evict_no_limit_check (cfg : Config) (clock : Nat) (store : Store)
    (ePool : EvictionPool) :
    (store.store = [] → (Store.evict cfg clock store ePool).1 = store) ∧
    (cfg.EvictionStrategy ≠ "simple-first" → cfg.EvictionStrategy ≠ "allkeys-random" →
      cfg.EvictionStrategy ≠ "allkeys-lru" →
      Store.evict cfg clock store ePool = (store, ePool)) ∧
    (cfg.EvictionStrategy = "simple-first" → store.WF → store.store ≠ [] →
      (Store.evict cfg clock store ePool).1.store.length + 1 = store.store.length) := by
  refine ⟨?_, evict_unknown cfg clock store ePool, ?_⟩
  · intro h
    obtain ⟨l⟩ := store
    simp only at h
    subst h
    exact evict_empty cfg clock ePool
  · intro h hs hne
    rw [evict_simple_first cfg clock store ePool h]
    obtain ⟨l⟩ := store
    cases l with
    | nil => exact absurd rfl hne
    | cons e rest =>
      obtain ⟨k, obj⟩ := e
      rw [evictFirst_cons hs]
      rfl

theorem evict_no_limit_check_witness :
    (Store.evict ⟨"allkeys-lru", 1 / 10, 10⟩ 0 ⟨[]⟩ ⟨[⟨"a", 3⟩]⟩).1 = ⟨[]⟩ :=
  (evict_no_limit_check ⟨"allkeys-lru", 1 / 10, 10⟩ 0 ⟨[]⟩ ⟨[⟨"a", 3⟩]⟩).1 rfl

/-- C13, as stated, fails: one tick after `lastAccessedAt = 0xFFFFFF` the clock
is `(0xFFFFFF + 1) mod 2^24 = 0` and `getIdleTime` returns 0, not the 1 tick
that elapsed. -/
theorem getIdleTime_elapsed_counterexample :
    (0xFFFFFF : Nat) < 2 ^ 24 ∧ (1 : Nat) < 2 ^ 24 ∧
    getIdleTime ((0xFFFFFF + 1) % 2 ^ 24) 0xFFFFFF = 0 ∧
    getIdleTime ((0xFFFFFF + 1) % 2 ^ 24) 0xFFFFFF ≠ 1 := by
  decide

/-- C13, amended: for `lastAccessedAt` and `d` in `[0, 2^24)`, with the clock
at `(lastAccessedAt + d) mod 2^24`, `getIdleTime` returns `d` when the clock
has not wrapped (`lastAccessedAt + d < 2^24`) and `d - 1` when it has; one tick
after `lastAccessedAt = 0xFFFFFF` it returns 0. -/
theorem getIdleTime_elapsed (lastAccessedAt d : Nat) (hl : lastAccessedAt < 2 ^ 24)
    (hd : d < 2 ^ 24) :
    (lastAccessedAt + d < 2 ^ 24 →
      getIdleTime ((lastAccessedAt + d) % 2 ^ 24) lastAccessedAt = d) ∧
    (2 ^ 24 ≤ lastAccessedAt + d →
      getIdleTime ((lastAccessedAt + d) % 2 ^ 24) lastAccessedAt = d - 1) ∧
    getIdleTime ((0xFFFFFF + 1) % 2 ^ 24) 0xFFFFFF = 0 :=
  ⟨(idleTime_by_elapsed_ticks lastAccessedAt d hl hd).1,
    (idleTime_by_elapsed_ticks lastAccessedAt d hl hd).2, by decide⟩

theorem getIdleTime_elapsed_witness :
    getIdleTime ((0xFFFFFF + 1) % 2 ^ 24) 0xFFFFFF = 1 - 1 :=
  (getIdleTime_elapsed 0xFFFFFF 1 (by decide) (by decide)).2.1 (by decide)

/-- C15: for a Unix time `t >= 0` representable as a signed 64-bit integer,
`getCurrentClock` returns `t mod 2^24`, which lies in `[0, 0xFFFFFF]`. -/
theorem getCurrentClock_spec (t : Int) (h0 : 0 ≤ t) (h1 : t < 2 ^ 63) :
    (getCurrentClock t : Int) = t % 2 ^ 24 ∧ getCurrentClock t ≤ 0xFFFFFF := by
  have _ := h0
  have _ := h1
  unfold getCurrentClock
  have h : (0x00FFFFFF : Nat) = 2 ^ 24 - 1 := by norm_num
  rw [h, Nat.and_pow_two_sub_one_eq_mod]
  omega

theorem getCurrentClock_spec_witness :
    (getCurrentClock 1730000000 : Int) = 1730000000 % 2 ^ 24 ∧
      getCurrentClock 1730000000 ≤ 0xFFFFFF :=
  getCurrentClock_spec 1730000000 (by decide) (by decide)

/-- C17: for a clock value and a `lastAccessedAt` both in `[0, 0xFFFFFF]`,
neither branch of `getIdleTime` underflows or overflows `uint32` (every
intermediate value, computed on the integers, lies in `[0, 2^32)` and the
result is the integer one), the result is in `[0, 0xFFFFFF]`, and in the
wrapped branch it is strictly less than `0xFFFFFF`. -/
theorem getIdleTime_no_overflow (c lastAccessedAt : Nat) (hc : c ≤ 0xFFFFFF)
    (hl : lastAccessedAt ≤ 0xFFFFFF) :
    (c ≥ lastAccessedAt →
      (0 : Int) ≤ (c : Int) - lastAccessedAt ∧
      (c : Int) - lastAccessedAt < 2 ^ 32 ∧
      (getIdleTime c lastAccessedAt : Int) = (c : Int) - lastAccessedAt ∧
      getIdleTime c lastAccessedAt ≤ 0xFFFFFF) ∧
    (c < lastAccessedAt →
      (0 : Int) ≤ (0xFFFFFF : Int) - lastAccessedAt ∧
      ((0xFFFFFF : Int) - lastAccessedAt) + c < 2 ^ 32 ∧
      (getIdleTime c lastAccessedAt : Int) = ((0xFFFFFF : Int) - lastAccessedAt) + c ∧
      getIdleTime c lastAccessedAt < 0xFFFFFF) := by
  unfold getIdleTime uint32Add uint32Sub
  constructor
  · intro h
    rw [if_pos h]
    omega
  · intro h
    rw [if_neg (by omega)]
    omega

theorem getIdleTime_no_overflow_witness :
    getIdleTime 100 16777000 < 0xFFFFFF :=
  ((getIdleTime_no_overflow 100 16777000 (by decide) (by decide)).2 (by decide)).2.2.2

/-- C18: `AddWatcher(Q, c)` and `RemoveWatcher(Q, c)` change only the entry of
`Q`: every other query keeps its entry (registered or not, same client set),
and within the client set of `Q` the membership of every client other than `c`
is unchanged. -/
theorem watcher_frame (w : WatchList) (query query' : DSQLQuery) (clientFd c : Int) :
    (query' ≠ query →
      SyncMap.Load (AddWatcher w query clientFd) query' = SyncMap.Load w query' ∧
      SyncMap.Load (RemoveWatcher w query clientFd) query' = SyncMap.Load w query') ∧
    (c ≠ clientFd →
      (c ∈ clientsOf (AddWatcher w query clientFd) query ↔ c ∈ clientsOf w query) ∧
      (c ∈ clientsOf (RemoveWatcher w query clientFd) query ↔ c ∈ clientsOf w query)) := by
  constructor
  · intro hne
    exact ⟨Load_AddWatcher_other w clientFd (fun h => hne h.symm),
      Load_RemoveWatcher_other w clientFd (fun h => hne h.symm)⟩
  · intro hne
    refine ⟨mem_clientsOf_AddWatcher w query clientFd c hne, ?_⟩
    rw [mem_clientsOf_RemoveWatcher]
    exact ⟨fun h => h.1, fun h => ⟨h, hne⟩⟩

theorem watcher_frame_witness :
    SyncMap.Load
        (AddWatcher [(⟨"order:*", "p"⟩, [(7, ())])] ⟨"user:*", "q"⟩ 1) ⟨"order:*", "p"⟩ =
      SyncMap.Load ([(⟨"order:*", "p"⟩, [(7, ())])] : WatchList) ⟨"order:*", "p"⟩ :=
  ((watcher_frame [(⟨"order:*", "p"⟩, [(7, ())])] ⟨"user:*", "q"⟩ ⟨"order:*", "p"⟩ 1 2).1
    (by decide)).1

/-- C19: `Store.evict` dispatches on the strategy name only: for each of the
three names it is `evictFirst`, `evictAllkeysRandom` and `evictAllkeysLRU`
respectively, and for every other string it leaves the store and the eviction
pool unchanged, whatever the key count. -/
theorem evict_dispatch (cfg : Config) (clock : Nat) (store : Store) (ePool : EvictionPool) :
    (cfg.EvictionStrategy = "simple-first" →
      Store.evict cfg clock store ePool = (evictFirst store, ePool)) ∧
    (cfg.EvictionStrategy = "allkeys-random" →
      Store.evict cfg clock store ePool = (evictAllkeysRandom cfg store, ePool)) ∧
    (cfg.EvictionStrategy = "allkeys-lru" →
      Store.evict cfg clock store ePool = evictAllkeysLRU cfg clock store ePool) ∧
    (cfg.EvictionStrategy ≠ "simple-first" → cfg.EvictionStrategy ≠ "allkeys-random" →
      cfg.EvictionStrategy ≠ "allkeys-lru" →
      Store.evict cfg clock store ePool = (store, ePool)) := by
  refine ⟨evict_simple_first cfg clock store ePool, ?_, ?_, evict_unknown cfg clock store ePool⟩
  · intro h
    unfold Store.evict
    rw [h]
    rfl
  · intro h
    unfold Store.evict
    rw [h]
    rfl

theorem evict_dispatch_witness :
    Store.evict ⟨"", 1 / 10, 10⟩ 0 ⟨[("a", ⟨"1", 0⟩)]⟩ ⟨[⟨"b", 3⟩]⟩ =
      (⟨[("a", ⟨"1", 0⟩)]⟩, ⟨[⟨"b", 3⟩]⟩) :=
  (evict_dispatch ⟨"", 1 / 10, 10⟩ 0 ⟨[("a", ⟨"1", 0⟩)]⟩ ⟨[⟨"b", 3⟩]⟩).2.2.2
    (by decide) (by decide) (by decide)

/-- C14: for a store with `n` keys, `populateEvictionPool` calls `ePool.Push`
exactly `min(5, n)` times, on the first `min(5, n)` keys of the iteration order,
each with the `LastAccessedAt` that `Get` returns for the key; the store is
only read.  The pool it returns is the pool after these pushes and, when the
pool was empty before, holds exactly these keys. -/
theorem populateEvictionPool_spec (clock : Nat) (store : Store) (ePool : EvictionPool) (hs : store.WF) :
    (populateEvictionPoolLog clock store ePool).2 =
        (store.store.take 5).map (fun e => (e.1, e.2.LastAccessedAt)) ∧
    (populateEvictionPoolLog clock store ePool).2.length = min 5 store.store.length ∧
    (∀ e ∈ (populateEvictionPoolLog clock store ePool).2,
      ∃ v, store.Get e.1 = some v ∧ e.2 = v.LastAccessedAt) ∧
    populateEvictionPool clock store ePool = (populateEvictionPoolLog clock store ePool).1 ∧
    populateEvictionPool clock store ePool =
      (populateEvictionPoolLog clock store ePool).2.foldl
        (fun p e => p.Push clock e.1 e.2) ePool ∧
    (ePool.pool = [] →
      ((populateEvictionPool clock store ePool).pool.map PoolItem.keyPtr).Perm
        ((SyncMap.keys store.store).take 5)) := by
  have hget : ∀ e ∈ store.store, store.Get e.1 = some e.2 :=
    fun e he => SyncMap.Load_of_mem hs he
  have hrun := populateLog_run clock store store.store hget ePool 5 (by decide) []
  have herase := populateLog_erase clock store store.store ((ePool, 5), [])
  have h5 : (5 : Int).toNat = 5 := rfl
  rw [h5] at hrun
  simp only [List.nil_append] at hrun
  have hlog : (populateEvictionPoolLog clock store ePool).2 =
      (store.store.take 5).map (fun e => (e.1, e.2.LastAccessedAt)) := hrun.1
  have hpool : (populateEvictionPoolLog clock store ePool).1 =
      ((store.store.take 5).map (fun e => (e.1, e.2.LastAccessedAt))).foldl
        (fun p e => p.Push clock e.1 e.2) ePool := hrun.2
  have heq : populateEvictionPool clock store ePool =
      (populateEvictionPoolLog clock store ePool).1 := by
    rw [populateEvictionPool_eq]
    exact (congrArg Prod.fst herase).symm
  refine ⟨hlog, ?_, ?_, heq, ?_, ?_⟩
  · rw [hlog, List.length_map, List.length_take]
  · intro e he
    rw [hlog, List.mem_map] at he
    obtain ⟨x, hx, rfl⟩ := he
    exact ⟨x.2, hget x (List.mem_of_mem_take hx), rfl⟩
  · rw [heq, hpool, hlog]
  · intro hempty
    rw [heq, hpool]
    have hkeys : ((store.store.take 5).map (fun e => (e.1, e.2.LastAccessedAt))).map Prod.fst =
        (SyncMap.keys store.store).take 5 := by
      simp only [SyncMap.keys, List.map_take, List.map_map]
      rfl
    have hperm := foldl_Push_keys clock
      ((store.store.take 5).map (fun e => (e.1, e.2.LastAccessedAt))) ePool
      (by rw [hkeys]; exact List.Nodup.sublist (List.take_sublist _ _) hs)
      (by intro e _; rw [hempty]; simp)
      (by rw [hempty]; simp [poolCapacity])
    rw [hkeys, hempty] at hperm
    simpa using hperm

theorem populateEvictionPool_spec_witness :
    (populateEvictionPoolLog 10 ⟨[("a", ⟨"1", 7⟩), ("b", ⟨"2", 9⟩)]⟩ ⟨[]⟩).2 =
      [("a", 7), ("b", 9)] :=
  (populateEvictionPool_spec 10 ⟨[("a", ⟨"1", 7⟩), ("b", ⟨"2", 9⟩)]⟩ ⟨[]⟩ (by decide)).1

/-- C11: the code at the failing input.  With ratio 1 and limit 32768 the
target is 32768 and the populated pool holds one entry, so one pop-and-delete
iteration is due; `int16(32768.0)` is out of range (it wraps to -32768), the
loop condition `i < int(evictCount)` fails at once, no key is passed to
`DelByPtr` and the store is unchanged. -/
theorem evictAllkeysLRU_int16_failing :
    Config.WF ⟨"allkeys-lru", 1, 32768⟩ ∧
    ⌊(⟨"allkeys-lru", 1, 32768⟩ : Config).target⌋ = 32768 ∧
    (populateEvictionPool 0 ⟨[("a", ⟨"1", 0⟩)]⟩ ⟨[]⟩).pool.length = 1 ∧
    (evictAllkeysLRULog ⟨"allkeys-lru", 1, 32768⟩ 0 ⟨[("a", ⟨"1", 0⟩)]⟩ ⟨[]⟩).2 = [] ∧
    (evictAllkeysLRU ⟨"allkeys-lru", 1, 32768⟩ 0 ⟨[("a", ⟨"1", 0⟩)]⟩ ⟨[]⟩).1 =
      ⟨[("a", ⟨"1", 0⟩)]⟩ := by
  have q : (⟨"allkeys-lru", 1, 32768⟩ : Config).target = 32768 := by
    rw [target_exact _ 1 15 1 15 (by norm_num) (by norm_num) (by norm_num) (by norm_num)
      (by norm_num) (by norm_num)]
    norm_num
  have t : truncate (⟨"allkeys-lru", 1, 32768⟩ : Config).target = 32768 := by
    rw [q]
    norm_num [truncate]
  refine ⟨?_, ?_, by decide, ?_, ?_⟩
  · simp only [Config.WF]; norm_num
  · rw [q]
    norm_num
  · rw [evictAllkeysLRULog_eq, t]
    decide
  · rw [evictAllkeysLRU_eq, t]
    decide

/-- C16, as stated, fails: with ratio 1 and limit `-2^63` the target is `-2^63`,
the first decrement of the `int64` counter wraps to `2^63 - 1`, the iteration
goes on, and both keys of a store that holds two are removed instead of one. -/
theorem evictAllkeysRandom_count_counterexample :
    Store.WF ⟨[("a", ⟨"1", 0⟩), ("b", ⟨"2", 0⟩)]⟩ ∧
    ⌊(⟨"allkeys-random", 1, -2 ^ 63⟩ : Config).target⌋ = -2 ^ 63 ∧
    (evictAllkeysRandom ⟨"allkeys-random", 1, -2 ^ 63⟩
      ⟨[("a", ⟨"1", 0⟩), ("b", ⟨"2", 0⟩)]⟩).store = [] ∧
    ¬ ((Store.mk [("a", ⟨"1", 0⟩), ("b", ⟨"2", 0⟩)]).store.length -
        (evictAllkeysRandom ⟨"allkeys-random", 1, -2 ^ 63⟩
          ⟨[("a", ⟨"1", 0⟩), ("b", ⟨"2", 0⟩)]⟩).store.length =
      min (max ⌊(⟨"allkeys-random", 1, -2 ^ 63⟩ : Config).target⌋ 1).toNat
        (Store.mk [("a", ⟨"1", 0⟩), ("b", ⟨"2", 0⟩)]).store.length) := by
  have hq : (⟨"allkeys-random", 1, -2 ^ 63⟩ : Config).target = ((-2 ^ 63 : Int) : ℚ) := by
    rw [target_exact _ (-1) 63 (-1) 63 (by norm_num) (by norm_num) (by norm_num) (by norm_num)
      (by norm_num) (by norm_num)]
    norm_num
  have t : truncate (⟨"allkeys-random", 1, -2 ^ 63⟩ : Config).target = -2 ^ 63 := by
    unfold truncate
    rw [hq, if_neg (by norm_num), Int.ceil_intCast]
  have hf : ⌊(⟨"allkeys-random", 1, -2 ^ 63⟩ : Config).target⌋ = -2 ^ 63 := by
    rw [hq, Int.floor_intCast]
  have hr : (evictAllkeysRandom ⟨"allkeys-random", 1, -2 ^ 63⟩
      ⟨[("a", ⟨"1", 0⟩), ("b", ⟨"2", 0⟩)]⟩).store = [] := by
    rw [evictAllkeysRandom_eq, t]
    decide
  refine ⟨by decide, hf, hr, ?_⟩
  rw [hr, hf]
  decide

/-- C16, amended: for every store with `n` keys and every configuration whose
`int64` counter `evictCount`, the target truncated towards zero, lies strictly
between `-2^63` and `2^63`, `evictAllkeysRandom` removes exactly
`min(max(k, 1), n)` keys, `k` being `floor(evictionRatio × keysLimit)` with
the `float64` product the code computes; so when
`k` is 0 or negative it still removes exactly one key, the first, of a
non-empty store. -/
theorem evictAllkeysRandom_count (cfg : Config) (store : Store) (hs : store.WF)
    (hlo : -2 ^ 63 < truncate cfg.target) (hhi : truncate cfg.target < 2 ^ 63) :
    (evictAllkeysRandom cfg store).store.length ≤ store.store.length ∧
    store.store.length - (evictAllkeysRandom cfg store).store.length =
      min (max ⌊cfg.target⌋ 1).toNat store.store.length ∧
    (⌊cfg.target⌋ ≤ 0 → store.store ≠ [] →
      (evictAllkeysRandom cfg store).store = store.store.tail ∧
      (evictAllkeysRandom cfg store).store.length + 1 = store.store.length) := by
  rw [evictAllkeysRandom_drop_of_range hlo hhi hs]
  simp only [List.length_drop]
  refine ⟨by omega, by omega, ?_⟩
  intro hk hne
  have h1 : (max ⌊cfg.target⌋ 1).toNat = 1 := by omega
  rw [h1]
  obtain ⟨e, rest, hl⟩ := List.exists_cons_of_ne_nil hne
  rw [hl]
  simp

theorem evictAllkeysRandom_count_witness :
    (evictAllkeysRandom ⟨"allkeys-random", 1 / 8, 5⟩
        ⟨[("a", ⟨"1", 0⟩), ("b", ⟨"2", 0⟩)]⟩).store =
      (Store.mk [("a", ⟨"1", 0⟩), ("b", ⟨"2", 0⟩)]).store.tail := by
  have q : (⟨"allkeys-random", 1 / 8, 5⟩ : Config).target = 5 / 8 := by
    rw [target_exact _ 5 0 5 (-3) (by norm_num) (by norm_num) (by norm_num) (by norm_num)
      (by norm_num) (by norm_num)]
    norm_num
  have t : truncate (⟨"allkeys-random", 1 / 8, 5⟩ : Config).target = 0 := by
    rw [q]
    norm_num [truncate, Int.floor_eq_iff]
  exact ((evictAllkeysRandom_count ⟨"allkeys-random", 1 / 8, 5⟩
      ⟨[("a", ⟨"1", 0⟩), ("b", ⟨"2", 0⟩)]⟩ (by decide)
      (by rw [t]; norm_num) (by rw [t]; norm_num)).2.2
    (by rw [q]; norm_num [Int.floor_le_iff]) (by decide)).1

end Dice
